import Mathlib

/-!
Verification development for the compile-and-execute core of the yex
language: the bytecode compiler (front/src/compiler/mod.rs) and the stack
virtual machine (vm/src/lib.rs, vm/src/literal/mod.rs), shallowly embedded
in Lean.

Numbers: the source uses f64.  The embedding models the f64 values that the
verified operations manipulate as exact rationals together with the IEEE
special values (signed infinity and NaN); the arithmetic on finite values is
exact, and the special values follow the IEEE rules for the operations the
source performs (division by zero, NaN propagation, NaN incomparability).

Heap references: the source shares Str/Fn/Type/Instance values behind GcRef
pointers.  The embedding stores them inline; equality between Fn, Type and
Instance values (a derived PartialEq over GcRef in the source, whose gc.rs
is not part of the provided sources) is modelled from the spec, which states
that reference identity suffices for them: a comparison between separately
constructed Fn/Type/Instance values is false.

Source locations: every instruction carries a line and column used only for
error reporting; the spec states they are never consumed as operands, and no
claim mentions them, so the embedding drops them and a bytecode is a plain
list of opcodes.
-/

set_option maxHeartbeats 4000000

namespace Yex

/-- Interned identifiers, modelled as strings. -/
abbrev Symbol := String

/-- Model of the f64 numeric domain: exact rationals plus the IEEE special
values produced by the embedded operations. -/
inductive YNum where
  | fin (q : ℚ)
  | inf (pos : Bool)
  | nan
deriving DecidableEq

/-- Model of f64 equality (the derived PartialEq on Value's Num arm): NaN is
equal to nothing, including itself. -/
def numEq : YNum → YNum → Bool
  | .fin a, .fin b => decide (a = b)
  | .inf a, .inf b => a == b
  | _, _ => false

/-- Model of f64 partial_cmp: defined unless one side is NaN. -/
def numCmp : YNum → YNum → Option Ordering
  | .nan, _ => none
  | _, .nan => none
  | .fin a, .fin b => some (compare a b)
  | .fin _, .inf s => some (if s then .lt else .gt)
  | .inf s, .fin _ => some (if s then .gt else .lt)
  | .inf a, .inf b => some (if a = b then .eq else if a then .gt else .lt)

/-- Negation of an f64 value. -/
def numNeg : YNum → YNum
  | .fin q => .fin (-q)
  | .inf s => .inf (!s)
  | .nan => .nan

/-- Addition on the f64 model. -/
def numAdd : YNum → YNum → YNum
  | .nan, _ => .nan
  | _, .nan => .nan
  | .fin a, .fin b => .fin (a + b)
  | .fin _, .inf s => .inf s
  | .inf s, .fin _ => .inf s
  | .inf a, .inf b => if a = b then .inf a else .nan

/-- Subtraction on the f64 model. -/
def numSub (a b : YNum) : YNum := numAdd a (numNeg b)

/-- Multiplication on the f64 model. -/
def numMul : YNum → YNum → YNum
  | .nan, _ => .nan
  | _, .nan => .nan
  | .fin a, .fin b => .fin (a * b)
  | .fin a, .inf s => if a = 0 then .nan else .inf (s == decide (0 < a))
  | .inf s, .fin b => if b = 0 then .nan else .inf (s == decide (0 < b))
  | .inf a, .inf b => .inf (a == b)

/-- Division on the f64 model; in particular a positive finite value divided
by zero is positive infinity, and zero divided by zero is NaN. -/
def numDiv : YNum → YNum → YNum
  | .nan, _ => .nan
  | _, .nan => .nan
  | .fin a, .fin b =>
      if b = 0 then (if a = 0 then .nan else .inf (decide (0 < a)))
      else .fin (a / b)
  | .fin _, .inf _ => .fin 0
  | .inf s, .fin b => if b < 0 then .inf (!s) else .inf s
  | .inf _, .inf _ => .nan

/-- Truncation of a rational toward zero, used by the f64 remainder. -/
def ratTrunc (q : ℚ) : ℤ := if 0 ≤ q then q.floor else -((-q).floor)

/-- Remainder on the f64 model (Rust f64 %, which keeps the dividend sign). -/
def numRem : YNum → YNum → YNum
  | .nan, _ => .nan
  | _, .nan => .nan
  | .fin a, .fin b => if b = 0 then .nan else .fin (a - b * (ratTrunc (a / b) : ℚ))
  | .fin a, .inf _ => .fin a
  | .inf _, _ => .nan

/-- Test for a zero fractional part (the source guard x.fract() == 0.0);
false on infinities and NaN, whose fract is NaN. -/
def numIsInt : YNum → Bool
  | .fin q => decide (q.den = 1)
  | _ => false

/-- Model of the Rust saturating cast from f64 to u64. -/
def numToU64 : YNum → ℕ
  | .fin q => if q < 0 then 0 else min q.floor.toNat (2 ^ 64 - 1)
  | .inf s => if s then 2 ^ 64 - 1 else 0
  | .nan => 0

/-- The opcode enumeration of the VM (vm/src/opcode.rs is not among the
provided sources; the variants and operand types are exactly those consumed
by the compiler and the VM dispatch loop in the provided sources). -/
inductive OpCode where
  | nop
  | push (idx : ℕ)
  | pop
  | dup
  | rev
  | load (idx : ℕ)
  | save (idx : ℕ)
  | drop (idx : ℕ)
  | loag (name : Symbol)
  | savg (name : Symbol)
  | jmp (t : ℕ)
  | jmf (t : ℕ)
  | tryOp (t : ℕ)
  | endTry
  | call (n : ℕ)
  | tcall (n : ℕ)
  | add
  | sub
  | mul
  | div
  | rem
  | bitAnd
  | bitOr
  | xor
  | shl
  | shr
  | eq
  | less
  | lessEq
  | notOp
  | len
  | neg
  | prep
  | new (n : ℕ)
  | get (field : Symbol)
  | ref (method : Symbol)
  | typeOp
  | tup (n : ℕ)
  | tupGet (idx : ℕ)
deriving DecidableEq

/-- Bytecode: a vector of instructions (source locations dropped, see the
header comment). -/
abbrev Bytecode := List OpCode

/-- Body of a callable: a bytecode function or a native (host) function,
the latter identified by an index interpreted by the host environment. -/
inductive FnKind where
  | bytecode (code : Bytecode)
  | native (id : ℕ)
deriving DecidableEq

/-- Shape of the Fn struct (vm/src/literal/fun.rs is not among the provided
sources; the fields arity, args and body are exactly those the VM uses). -/
structure GFn (α : Type) where
  arity : ℕ
  args : List α
  body : FnKind

/-- Shape of the YexType struct: name, method table, ordered parameter
names and optional initializer, per the spec and the fields the VM uses. -/
structure GType (α : Type) where
  name : Symbol
  fields : List (Symbol × α)
  params : List Symbol
  init : Option (GFn α)

/-- Shape of the Instance struct: its type and its field table. -/
structure GInst (α : Type) where
  ty : GType α
  fields : List (Symbol × α)

/-- Runtime values (vm/src/literal/mod.rs, enum Value). -/
inductive Value where
  | num (n : YNum)
  | str (s : String)
  | sym (s : Symbol)
  | bool (b : Bool)
  | fn (f : GFn Value)
  | table (items : List (Symbol × Value))
  | list (xs : List Value)
  | type (t : GType Value)
  | inst (i : GInst Value)
  | tuple (xs : List Value)
  | nil

/-- Callable values. -/
abbrev Fn := GFn Value

/-- User-defined type descriptors. -/
abbrev YexType := GType Value

/-- Instances of user-defined types. -/
abbrev Instance := GInst Value

mutual
/-- Model of the derived PartialEq on Value: structural on Num (with IEEE
NaN behavior), Str, Sym, Bool, Nil, List, Tuple and Table; Fn, Type and
Instance compare behind GcRef, modelled from the spec as reference identity,
hence false between separately constructed values. -/
def vbeq : Value → Value → Bool
  | .num a, .num b => numEq a b
  | .str a, .str b => decide (a = b)
  | .sym a, .sym b => decide (a = b)
  | .bool a, .bool b => a == b
  | .list xs, .list ys => vbeqList xs ys
  | .tuple xs, .tuple ys => vbeqList xs ys
  | .table xs, .table ys => vbeqPairs xs ys
  | .nil, .nil => true
  | _, _ => false

/-- Elementwise equality of value lists. -/
def vbeqList : List Value → List Value → Bool
  | [], [] => true
  | a :: as, b :: bs => vbeq a b && vbeqList as bs
  | _, _ => false

/-- Elementwise equality of keyed value lists. -/
def vbeqPairs : List (Symbol × Value) → List (Symbol × Value) → Bool
  | [], [] => true
  | (k, v) :: as, (l, w) :: bs => decide (k = l) && vbeq v w && vbeqPairs as bs
  | _, _ => false
end

/-- Truthiness of a value (Value::to_bool in the source). -/
def toBool : Value → Bool
  | .bool b => b
  | .sym _ => true
  | .str s => !(s.isEmpty)
  | .num n => !(numEq n (.fin 0))
  | .nil => false
  | .list xs => !(xs.isEmpty)
  | .fn _ => true
  | .type _ => true
  | .table _ => true
  | .tuple _ => true
  | .inst _ => true

/-- Size of a value (Value::len in the source); pointer and scalar sizes are
those of the 64-bit target (size_of f64 = 8, bool = 1, references = 8, and
the source returns 4 for Nil). -/
def vlen : Value → ℕ
  | .list xs => xs.length
  | .num _ => 8
  | .sym _ => 8
  | .str s => s.utf8ByteSize
  | .fn _ => 8
  | .bool _ => 1
  | .type _ => 8
  | .inst _ => 8
  | .table t => t.length
  | .tuple t => t.length
  | .nil => 4

/-- Result of a fallible value operation: the produced value, or an error
kind (the Symbol stored in InterpretError; source locations dropped). -/
abbrev VRes := Except Symbol Value

/-- Addition on values (impl_numeric Add): numbers add, strings concatenate,
anything else is a TypeError. -/
def vadd : Value → Value → VRes
  | .num x, .num y => .ok (.num (numAdd x y))
  | .str x, .str y => .ok (.str (x ++ y))
  | _, _ => .error "TypeError"

/-- Subtraction on values (impl_numeric Sub); the macro gives every numeric
operator the same string-concatenation arm. -/
def vsub : Value → Value → VRes
  | .num x, .num y => .ok (.num (numSub x y))
  | .str x, .str y => .ok (.str (x ++ y))
  | _, _ => .error "TypeError"

/-- Multiplication on values (impl_numeric Mul). -/
def vmul : Value → Value → VRes
  | .num x, .num y => .ok (.num (numMul x y))
  | .str x, .str y => .ok (.str (x ++ y))
  | _, _ => .error "TypeError"

/-- Division on values (impl_numeric Div): two numbers always divide
successfully under IEEE semantics, so division by zero is not an error. -/
def vdiv : Value → Value → VRes
  | .num x, .num y => .ok (.num (numDiv x y))
  | .str x, .str y => .ok (.str (x ++ y))
  | _, _ => .error "TypeError"

/-- Remainder on values (impl_numeric Rem). -/
def vrem : Value → Value → VRes
  | .num x, .num y => .ok (.num (numRem x y))
  | .str x, .str y => .ok (.str (x ++ y))
  | _, _ => .error "TypeError"

/-- Bitwise operation on values (impl_bit): both operands must be numbers
with zero fractional part, which are cast to u64, combined, and cast back;
the macro also gives these operators the string-concatenation arm. -/
def vbitop (f : ℕ → ℕ → ℕ) : Value → Value → VRes
  | .num x, .num y =>
      if numIsInt x && numIsInt y then
        .ok (.num (.fin ((f (numToU64 x) (numToU64 y) : ℕ) : ℚ)))
      else .error "TypeError"
  | .str x, .str y => .ok (.str (x ++ y))
  | _, _ => .error "TypeError"

/-- Unary negation on values. -/
def vneg : Value → VRes
  | .num n => .ok (.num (numNeg n))
  | _ => .error "TypeError"

/-- Ordered comparison (Value::ord_cmp): both operands must be numbers, and
their f64 partial comparison must be defined; otherwise TypeError. -/
def ordCmp : Value → Value → Except Symbol Ordering
  | .num x, .num y =>
      match numCmp x y with
      | some o => .ok o
      | none => .error "TypeError"
  | _, _ => .error "TypeError"

/-- First value bound to a key in a field or method table. -/
def fieldsGet (fields : List (Symbol × Value)) (k : Symbol) : Option Value :=
  (fields.find? (fun p => decide (p.1 = k))).map (fun p => p.2)

/-- Modelled from the spec: the built-in type descriptors (YexType::num and
friends) live in vm/src/literal/yextype.rs, which is not among the provided
sources; they are modelled as types with the evident name, no methods, no
parameters and no initializer. -/
def builtinType (name : Symbol) : YexType := ⟨name, [], [], none⟩

/-- Type of a value (Value::type_of). -/
def typeOfValue : Value → YexType
  | .type t => t
  | .inst i => i.ty
  | .list _ => builtinType "List"
  | .fn _ => builtinType "Fn"
  | .num _ => builtinType "Num"
  | .str _ => builtinType "Str"
  | .bool _ => builtinType "Bool"
  | .nil => builtinType "Nil"
  | .sym _ => builtinType "Sym"
  | .table _ => builtinType "Table"
  | .tuple _ => builtinType "Tuple"

/-- Whether a callable's body is bytecode (Fn::is_bytecode, from the missing
fun.rs; trivially determined by the body kind). -/
def isBytecodeFn (f : Fn) : Bool :=
  match f.body with
  | .bytecode _ => true
  | .native _ => false

/-- Modelled from the spec: Fn::apply lives in the missing fun.rs.  Per the
spec, partial application yields a new Fn with the same body, the declared
arity reduced by the number of freshly supplied arguments, and the
accumulated argument vector stored in args. -/
def applyFn (f : Fn) (args : List Value) : Fn :=
  { arity := f.arity - (args.length - f.args.length), args := args, body := f.body }

/-- State of the virtual machine: operand stack (head is the top), the
locals array (total function standing in for the fixed 1024 array), the
used-locals counter, the constant pool and the global table.  The fixed
capacities (512 operand slots, 1024 locals) are not modelled; no claim
exercises an overflow. -/
structure VMState where
  stack : List Value
  locals : ℕ → Value
  usedLocals : ℕ
  constants : List Value
  globals : List (Symbol × Value)

/-- Push onto the operand stack. -/
def spush (s : VMState) (v : Value) : VMState := { s with stack := v :: s.stack }

/-- Pop from the operand stack; the StackVec (missing stack.rs) underflow
behavior is modelled as producing Nil, and is never exercised. -/
def spop (s : VMState) : Value × VMState :=
  match s.stack with
  | [] => (Value.nil, s)
  | v :: rest => (v, { s with stack := rest })

/-- VirtualMachine::pop_two: pops the top two values and returns them as
(below-top, top). -/
def popTwo (s : VMState) : (Value × Value) × VMState :=
  let (b, s1) := spop s
  let (a, s2) := spop s1
  ((a, b), s2)

/-- Pop n values, returned in pop order (top first). -/
def popN : ℕ → VMState → List Value × VMState
  | 0, s => ([], s)
  | n + 1, s =>
      let (v, s1) := spop s
      let (vs, s2) := popN n s1
      (v :: vs, s2)

/-- Push every element of a list in order (so the last element ends on
top). -/
def pushAll (args : List Value) (s : VMState) : VMState :=
  args.foldl (fun t v => spush t v) s

/-- Lookup in the global table (EnvTable::get; env.rs is not among the
provided sources, but the spec describes a symbol-to-value map). -/
def envGet (g : List (Symbol × Value)) (k : Symbol) : Option Value :=
  (g.find? (fun p => decide (p.1 = k))).map (fun p => p.2)

/-- Insert into the global table; the newest binding shadows older ones. -/
def envSet (g : List (Symbol × Value)) (k : Symbol) (v : Value) :
    List (Symbol × Value) :=
  (k, v) :: g

/-- Write one local slot. -/
def updateLoc (loc : ℕ → Value) (i : ℕ) (v : Value) : ℕ → Value :=
  fun j => if j = i then v else loc j

/-- Outcome of a VM step or run: success, a raised error kind, or fuel
exhaustion (an artifact of the fuel-indexed embedding of the source's
unbounded loop; concrete executions are run with ample fuel). -/
inductive Outcome where
  | ok
  | err (e : Symbol)
  | fuelOut
deriving DecidableEq

/-- VirtualMachine::call_args: with an exact-arity bytecode call carrying no
bound arguments the stack is left untouched and no argument vector is built;
otherwise n arguments are popped, assembled in reverse pop order, and the
callable's stored arguments are appended. -/
def callArgs (arity : ℕ) (f : Fn) (s : VMState) : List Value × VMState :=
  if f.arity == arity && isBytecodeFn f && f.args.isEmpty then ([], s)
  else
    let (popped, s1) := popN arity s
    (popped.reverse ++ f.args, s1)

/-- VirtualMachine::valid_tail_call: pops the callee; a non-Fn value fails
the Fn downcast with TypeError; a Fn fails with TailCallError unless its
body is bytecode identical to the executing frame and its arity matches. -/
def validTailCall (arity : ℕ) (frame : Bytecode) (s : VMState) :
    VMState × Option Symbol :=
  let (v, s1) := spop s
  match v with
  | .fn f =>
      match f.body with
      | .bytecode b =>
          if f.arity ≠ arity then (s1, some "TailCallError")
          else if b ≠ frame then (s1, some "TailCallError")
          else (s1, none)
      | .native _ => (s1, some "TailCallError")
  | _ => (s1, some "TypeError")

/-- Host interpretation of native functions.  Native bodies are external
collaborators (the prelude); the VM semantics is parameterized by the
meaning of each native id: given the argument vector (reversed by
call_native, so first-declared first) and the VM state, a native returns
the possibly mutated state and a value or an error. -/
abbrev NatSem := ℕ → List Value → VMState → VMState × Except Symbol Value

/-- VirtualMachine::call_native: reverse the argument vector, invoke the
host function, and push its result on success. -/
def callNative (natSem : NatSem) (id : ℕ) (args : List Value) (s : VMState) :
    VMState × Outcome :=
  match natSem id args.reverse s with
  | (s1, .ok v) => (spush s1 v, .ok)
  | (s1, .error e) => (s1, .err e)

/-- VirtualMachine::binop: pop the top (a) and the next value (b), apply the
operation to (b, a) so that the right operand is the popped top, and push
the result or propagate the error. -/
def binopApply (op : Value → Value → VRes) (fl : ℕ) (s : VMState) :
    (VMState × ℕ) × Outcome :=
  let (a, s1) := spop s
  let (b, s2) := spop s1
  match op b a with
  | .ok v => ((spush s2 v, fl), .ok)
  | .error e => ((s2, fl), .err e)

mutual
/-- VirtualMachine::run_op: one non-control opcode.  The frame-locals
counter is threaded explicitly (it is a &mut in the source); the control
opcodes Try, EndTry, Jmp, Jmf and TCall are handled by the dispatch loop and
are unreachable here (the source panics; the embedding returns the state
unchanged and the dispatch loop never sends them here).  Fuel is an
embedding artifact for the recursion into calls. -/
def runOp (natSem : NatSem) (fuel : ℕ) (op : OpCode) (fl : ℕ) (s : VMState) :
    (VMState × ℕ) × Outcome :=
  match fuel with
  | 0 => ((s, fl), .fuelOut)
  | f + 1 =>
    match op with
    | .nop => ((s, fl), .ok)
    | .push idx => ((spush s (s.constants.getD idx .nil), fl), .ok)
    | .pop => (((spop s).2, fl), .ok)
    | .dup =>
        let (v, s1) := spop s
        ((spush (spush s1 v) v, fl), .ok)
    | .rev =>
        let ((a, b), s2) := popTwo s
        ((spush (spush s2 b) a, fl), .ok)
    | .call n =>
        let (s1, o) := vcall natSem f n s
        ((s1, fl), o)
    | .add => binopApply vadd fl s
    | .sub => binopApply vsub fl s
    | .mul => binopApply vmul fl s
    | .div => binopApply vdiv fl s
    | .rem => binopApply vrem fl s
    | .bitAnd => binopApply (vbitop Nat.land) fl s
    | .bitOr => binopApply (vbitop Nat.lor) fl s
    | .xor => binopApply (vbitop Nat.xor) fl s
    | .shl => binopApply (vbitop (fun a b => (a <<< (b % 64)) % 2 ^ 64)) fl s
    | .shr => binopApply (vbitop (fun a b => a >>> (b % 64))) fl s
    | .eq => binopApply (fun a b => .ok (.bool (vbeq a b))) fl s
    | .less =>
        let ((a, b), s2) := popTwo s
        (match ordCmp a b with
         | .ok o => ((spush s2 (.bool o.isLT), fl), .ok)
         | .error e => ((s2, fl), .err e))
    | .lessEq =>
        let ((a, b), s2) := popTwo s
        (match ordCmp a b with
         | .ok o => ((spush s2 (.bool o.isLE), fl), .ok)
         | .error e => ((s2, fl), .err e))
    | .notOp =>
        let (v, s1) := spop s
        ((spush s1 (.bool (!toBool v)), fl), .ok)
    | .len =>
        let (v, s1) := spop s
        ((spush s1 (.num (.fin (vlen v : ℚ))), fl), .ok)
    | .neg =>
        let (v, s1) := spop s
        (match vneg v with
         | .ok w => ((spush s1 w, fl), .ok)
         | .error e => ((s1, fl), .err e))
    | .load idx =>
        ((spush s (s.locals ((idx + s.usedLocals) - fl)), fl), .ok)
    | .save idx =>
        let (v, s1) := spop s
        (({ s1 with
              usedLocals := s1.usedLocals + 1,
              locals := updateLoc s1.locals (idx + ((s1.usedLocals + 1) - (fl + 1))) v },
          fl + 1), .ok)
    | .drop _ => (({ s with usedLocals := s.usedLocals - 1 }, fl - 1), .ok)
    | .loag name =>
        (match envGet s.globals name with
         | some v => ((spush s v, fl), .ok)
         | none => ((s, fl), .err "NameError"))
    | .savg name =>
        let (v, s1) := spop s
        (({ s1 with globals := envSet s1.globals name v }, fl), .ok)
    | .prep =>
        let (v, s1) := spop s
        let (l, s2) := spop s1
        (match l with
         | .list xs => ((spush s2 (.list (v :: xs)), fl), .ok)
         | _ => ((s2, fl), .err "TypeError"))
    | .new n =>
        let (tv, s1) := spop s
        (match tv with
         | .type t =>
             let (args, s2) := popN n s1
             let (s3, o) := instantiate natSem f t args s2
             ((s3, fl), o)
         | _ => ((s1, fl), .err "TypeError"))
    | .get field =>
        let (v, s1) := spop s
        (match v with
         | .inst i =>
             (match fieldsGet i.fields field with
              | some w => ((spush s1 w, fl), .ok)
              | none => ((s1, fl), .err "FieldError"))
         | _ => ((s1, fl), .err "TypeError"))
    | .typeOp =>
        let (v, s1) := spop s
        ((spush s1 (.type (typeOfValue v)), fl), .ok)
    | .ref method =>
        let (v, s1) := spop s
        (match v with
         | .type t =>
             (match fieldsGet t.fields method with
              | some w => ((spush s1 w, fl), .ok)
              | none => ((s1, fl), .err "FieldError"))
         | _ => ((s1, fl), .err "TypeError"))
    | .tup n =>
        let (vs, s1) := popN n s
        ((spush s1 (.tuple vs), fl), .ok)
    | .tupGet idx =>
        let (v, s1) := spop s
        (match v with
         | .tuple t => ((spush s1 (t.getD idx .nil), fl), .ok)
         | _ => ((s1, fl), .err "TypeError"))
    | .tryOp _ => ((s, fl), .ok)
    | .endTry => ((s, fl), .ok)
    | .jmp _ => ((s, fl), .ok)
    | .jmf _ => ((s, fl), .ok)
    | .tcall _ => ((s, fl), .ok)
termination_by structural fuel

/-- VirtualMachine::call: pop the callee (a non-Fn fails the downcast with
TypeError), assemble the argument vector, then: more arguments than the
declared arity is a CallError; fewer is a partial application pushing a new
Fn; an exact count dispatches on the body kind. -/
def vcall (natSem : NatSem) (fuel : ℕ) (arity : ℕ) (s : VMState) :
    VMState × Outcome :=
  match fuel with
  | 0 => (s, .fuelOut)
  | f + 1 =>
    let (v, s1) := spop s
    match v with
    | .fn fn =>
        let (args, s2) := callArgs arity fn s1
        if arity > fn.arity then (s2, .err "CallError")
        else if arity < fn.arity then (spush s2 (.fn (applyFn fn args)), .ok)
        else
          match fn.body with
          | .bytecode code => callBytecode natSem f code args s2
          | .native id => callNative natSem id args s2
    | _ => (s1, .err "TypeError")
termination_by structural fuel

/-- Modelled from the spec: instantiate lives in the missing yextype.rs.
With no initializer the arguments are zipped positionally with the parameter
names to form the instance fields and the instance is pushed; with an
initializer, the spec says the initializer is called with those arguments
(the spec flags this path as ambiguous; it is modelled by re-pushing the
arguments and invoking the initializer through the ordinary call path, and
no claim exercises it). -/
def instantiate (natSem : NatSem) (fuel : ℕ) (ty : YexType) (args : List Value)
    (s : VMState) : VMState × Outcome :=
  match fuel with
  | 0 => (s, .fuelOut)
  | f + 1 =>
    match ty.init with
    | none => (spush s (.inst ⟨ty, ty.params.zip args⟩), .ok)
    | some initFn =>
        let s1 := pushAll args.reverse s
        let s2 := spush s1 (.fn initFn)
        vcall natSem f args.length s2
termination_by structural fuel

/-- VirtualMachine::call_bytecode: reserve the frame base slot, push the
assembled arguments so the callee's leading Save instructions consume them,
run the callee, and release the base slot on successful return (an error
propagates without the release, as in the source). -/
def callBytecode (natSem : NatSem) (fuel : ℕ) (code : Bytecode)
    (args : List Value) (s : VMState) : VMState × Outcome :=
  let s1 := pushAll args { s with usedLocals := s.usedLocals + 1 }
  match fuel with
  | 0 => (s1, .fuelOut)
  | f + 1 =>
      match vrun natSem f code s1 with
      | (s2, .ok) => ({ s2 with usedLocals := s2.usedLocals - 1 }, .ok)
      | r => r
termination_by structural fuel

/-- VirtualMachine::run: execute a bytecode vector with a fresh handler
stack, instruction pointer and frame-locals counter. -/
def vrun (natSem : NatSem) (fuel : ℕ) (code : Bytecode) (s : VMState) :
    VMState × Outcome :=
  match fuel with
  | 0 => (s, .fuelOut)
  | f + 1 => runLoop natSem f code [] 0 0 s
termination_by structural fuel

/-- The dispatch loop of VirtualMachine::run.  Control opcodes are handled
inline: Try pushes its target on the handler stack, EndTry pops it, Jmp and
Jmf transfer directly, and TCall validates the self tail call, restarting
the frame at ip 0 on success and returning the error from the whole run on
failure (the source propagates it with the question-mark operator, past the
handler stack).  Every other opcode goes through run_op; on an error with an
empty handler stack the run aborts, otherwise the top handler offset is
popped, the error kind is pushed as a Sym, ip is set to that offset, and the
shared increment at the bottom of the loop then advances ip by one more.  On
loop exit the frame's locals are released. -/
def runLoop (natSem : NatSem) (fuel : ℕ) (code : Bytecode) (tryStack : List ℕ)
    (ip fl : ℕ) (s : VMState) : VMState × Outcome :=
  if hip : ip < code.length then
    match fuel with
    | 0 => (s, .fuelOut)
    | f + 1 =>
      match code[ip] with
      | .tryOp t => runLoop natSem f code (t :: tryStack) (ip + 1) fl s
      | .endTry => runLoop natSem f code tryStack.tail (ip + 1) fl s
      | .jmp t => runLoop natSem f code tryStack t fl s
      | .jmf t =>
          let (v, s1) := spop s
          if toBool v then runLoop natSem f code tryStack (ip + 1) fl s1
          else runLoop natSem f code tryStack t fl s1
      | .tcall n =>
          (match validTailCall n code s with
           | (s1, none) => runLoop natSem f code tryStack 0 fl s1
           | (s1, some e) => (s1, .err e))
      | op =>
          (match runOp natSem f op fl s with
           | ((s1, fl1), .ok) => runLoop natSem f code tryStack (ip + 1) fl1 s1
           | ((s1, fl1), .err e) =>
               (match tryStack with
                | [] => (s1, .err e)
                | t :: ts => runLoop natSem f code ts (t + 1) fl1 (spush s1 (.sym e)))
           | ((s1, _), .fuelOut) => (s1, .fuelOut))
  else ({ s with usedLocals := s.usedLocals - fl }, .ok)
termination_by structural fuel
end

/-- A host interpretation with no native functions: every native call is a
TypeError.  Used to instantiate theorems at concrete inputs; no verified
execution reaches a native body. -/
def natSem0 : NatSem := fun _ _ s => (s, .error "TypeError")

/-- A fresh VM with an empty operand stack, Nil-initialized locals, and a
given constant pool.  The prelude's native globals (prelude.rs is not among
the provided sources) are irrelevant to every claim, which either touch no
globals or only names the prelude does not define; the table starts
empty. -/
def freshVM (consts : List Value) : VMState :=
  { stack := [], locals := fun _ => .nil, usedLocals := 0,
    constants := consts, globals := [] }

/-- Literal AST nodes (the compiler's Literal type comes from the missing
parser/ast.rs; the variants are the literal forms the parser produces:
numbers, strings, symbols, booleans and unit). -/
inductive Literal where
  | num (n : YNum)
  | str (s : String)
  | sym (s : Symbol)
  | bool (b : Bool)
  | unit
deriving DecidableEq

/-- Conversion of a literal to a runtime value (Literal into Value from the
missing ast.rs; unit becomes Nil). -/
def litToValue : Literal → Value
  | .num n => .num n
  | .str s => .str s
  | .sym s => .sym s
  | .bool b => .bool b
  | .unit => .nil

/-- Binary operators of the AST (missing ast.rs); And and Or are
special-cased by the compiler, every other operator maps to opcodes. -/
inductive BinOp where
  | add
  | sub
  | mul
  | div
  | rem
  | bitAnd
  | bitOr
  | xor
  | shl
  | shr
  | eq
  | less
  | lessEq
  | and
  | or
deriving DecidableEq

/-- Modelled from the spec: the BinOp to opcode translation lives in the
missing ast.rs; per the spec each operator maps to the corresponding
opcode. -/
def binOpOps : BinOp → List OpCode
  | .add => [.add]
  | .sub => [.sub]
  | .mul => [.mul]
  | .div => [.div]
  | .rem => [.rem]
  | .bitAnd => [.bitAnd]
  | .bitOr => [.bitOr]
  | .xor => [.xor]
  | .shl => [.shl]
  | .shr => [.shr]
  | .eq => [.eq]
  | .less => [.less]
  | .lessEq => [.lessEq]
  | .and => []
  | .or => []

/-- Unary operators of the AST (missing ast.rs). -/
inductive UnOp where
  | not
  | neg
  | len
deriving DecidableEq

/-- Modelled from the spec: the UnOp to opcode translation (missing
ast.rs). -/
def unOpOps : UnOp → List OpCode
  | .not => [.notOp]
  | .neg => [.neg]
  | .len => [.len]

/-- A binder (VarDecl of the missing ast.rs: a name). -/
structure VarDecl where
  name : Symbol
deriving DecidableEq

/-- Expressions of the AST, with exactly the kinds the compiler consumes.
When-arms are (condition, body) pairs and the wildcard is an optional
binder plus body; source locations are dropped (they only decorate emitted
opcodes, see the header comment). -/
inductive Expr where
  | lit (l : Literal)
  | lambda (args : List VarDecl) (body : Expr)
  | app (callee : Expr) (args : List Expr) (tail : Bool)
  | varE (name : Symbol)
  | ife (cond thenE elseE : Expr)
  | whenE (scrut : Expr) (arms : List (Expr × Expr)) (wc : Option (Option VarDecl × Expr))
  | letE (bind : VarDecl) (value : Expr)
  | defE (bind : VarDecl) (value : Expr)
  | binary (left : Expr) (op : BinOp) (right : Expr)
  | listE (xs : List Expr)
  | cons (head tail : Expr)
  | unop (op : UnOp) (right : Expr)
  | doE (body : List Expr)
  | field (obj : Expr) (name : Symbol)
  | methodRef (ty : Expr) (name : Symbol)
  | newE (ty : Expr) (args : List Expr)
  | invoke (obj : Expr) (name : Symbol) (args : List Expr)
  | tryE (body : Expr) (bind : VarDecl) (rescue : Expr)

/-- A method or initializer definition inside a type declaration; the
source stores a Def whose value the compiler requires to be a lambda (it
panics otherwise), so the lambda is carried directly. -/
structure MDef where
  name : Symbol
  args : List VarDecl
  body : Expr

/-- Top-level statements consumed by compile_stmts. -/
inductive Stmt where
  | defS (bind : VarDecl) (value : Expr)
  | letS (bind : VarDecl) (value : Expr)
  | classS (name : VarDecl) (methods : List MDef) (params : List VarDecl)
      (initM : Option MDef)
  | exprS (e : Expr)

/-- A compilation scope: the instruction vector being emitted and the local
name-to-slot map (a HashMap in the source, modelled as an association list
whose keys are unique because insertion only happens when absent). -/
structure Scope where
  opcodes : Bytecode
  locals : List (Symbol × ℕ)

instance : Inhabited Scope := ⟨⟨[], []⟩⟩

/-- Compiler state: the scope stack (head is the innermost scope) and the
constant pool. -/
structure CompState where
  scopeStack : List Scope
  constants : List Value

/-- The innermost scope (Compiler::scope; the source unwraps, the embedding
answers the empty scope for an empty stack, which no compilation path
reaches). -/
def topScope (st : CompState) : Scope := st.scopeStack.headD default

/-- Rewrite the innermost scope (Compiler::scope_mut).  On a nonempty scope
stack this replaces the head; the empty-stack case (on which the source
would panic, and which no compilation path reaches) conjures the default
scope so that the head and tail of the result are always f (topScope st)
and st.scopeStack.tail. -/
def setTop (f : Scope → Scope) (st : CompState) : CompState :=
  { st with scopeStack := f (st.scopeStack.headD default) :: st.scopeStack.tail }

/-- Compiler::emit_op: append one opcode to the innermost scope. -/
def emitOp (op : OpCode) (st : CompState) : CompState :=
  setTop (fun sc => { sc with opcodes := sc.opcodes ++ [op] }) st

/-- Compiler::emit_ops. -/
def emitOps (ops : List OpCode) (st : CompState) : CompState :=
  ops.foldl (fun t o => emitOp o t) st

/-- Length of the innermost scope's instruction vector. -/
def curLen (st : CompState) : ℕ := (topScope st).opcodes.length

/-- Overwrite the opcode at an index of the innermost scope (back-patching
a previously emitted placeholder). -/
def patchOp (i : ℕ) (op : OpCode) (st : CompState) : CompState :=
  setTop (fun sc => { sc with opcodes := sc.opcodes.set i op }) st

/-- Index of the first element satisfying a predicate (Iterator::position
in the source's emit_lit and emit_const). -/
def findPos (p : α → Bool) : List α → Option ℕ
  | [] => none
  | a :: l => if p a then some 0 else (findPos p l).map (fun i => i + 1)

/-- Compiler::emit_lit: reuse the index of a pool entry equal to the
literal, else append the literal's value (the Literal-to-Value comparison of
the missing ast.rs is the structural equality of the converted value). -/
def emitLit (lit : Literal) (st : CompState) : CompState :=
  match findPos (fun c => vbeq (litToValue lit) c) st.constants with
  | some idx => emitOp (.push idx) st
  | none =>
      emitOp (.push st.constants.length)
        { st with constants := st.constants ++ [litToValue lit] }

/-- Compiler::emit_const: reuse the index of an equal pool entry (the pool
entry is the left operand of the comparison in the source), else append. -/
def emitConst (v : Value) (st : CompState) : CompState :=
  match findPos (fun c => vbeq c v) st.constants with
  | some idx => emitOp (.push idx) st
  | none =>
      emitOp (.push st.constants.length)
        { st with constants := st.constants ++ [v] }

/-- Lookup of a local name in a scope's map. -/
def localsGet (locals : List (Symbol × ℕ)) (name : Symbol) : Option ℕ :=
  (locals.find? (fun p => decide (p.1 = name))).map (fun p => p.2)

/-- HashMap entry(name).or_insert(v): keep an existing binding, else add
one. -/
def localsOrInsert (locals : List (Symbol × ℕ)) (name : Symbol) (v : ℕ) :
    List (Symbol × ℕ) :=
  match localsGet locals name with
  | some _ => locals
  | none => locals ++ [(name, v)]

/-- Compiler::emit_save: compute len = locals.len() + 1, bind the name to
len only if it is not already bound, and emit Save(len) regardless; returns
len like the source. -/
def emitSave (bind : VarDecl) (st : CompState) : ℕ × CompState :=
  let len := (topScope st).locals.length + 1
  let st1 := setTop (fun sc => { sc with locals := localsOrInsert sc.locals bind.name len }) st
  (len, emitOp (.save len) st1)

/-- Builds the fresh scope a lambda compiles its body in: slot i and a
leading Save(i) for the i-th parameter.  HashMap insertion lets a repeated
parameter name shadow an earlier one, so the association list accumulates
later bindings at the head, where lookup finds them first. -/
def lambdaScopeGo : List VarDecl → ℕ → Scope → Scope
  | [], _, acc => acc
  | a :: rest, i, acc =>
      lambdaScopeGo rest (i + 1) ⟨acc.opcodes ++ [.save i], (a.name, i) :: acc.locals⟩

/-- The scope pushed by Compiler::lambda_expr before compiling the body. -/
def lambdaScope (args : List VarDecl) : Scope := lambdaScopeGo args 0 ⟨[], []⟩

mutual
/-- Compiler::expr: lower one expression onto the innermost scope. -/
def cexpr : Expr → CompState → CompState
  | .lit l, st => emitLit l st
  | .lambda args body, st =>
      let st1 := { st with scopeStack := lambdaScope args :: st.scopeStack }
      let st2 := cexpr body st1
      let popped := topScope st2
      let st3 := { st2 with scopeStack := st2.scopeStack.tail }
      emitConst (.fn ⟨args.length, [], .bytecode popped.opcodes⟩) st3
  | .app callee args tl, st =>
      let st1 := crevList args st
      let st2 := cexpr callee st1
      if tl then emitOp (.tcall args.length) st2
      else emitOp (.call args.length) st2
  | .varE name, st =>
      (match localsGet (topScope st).locals name with
       | some idx => emitOp (.load idx) st
       | none => emitOp (.loag name) st)
  | .ife cond thenE elseE, st =>
      let st1 := cexpr cond st
      let thenLabel := curLen st1
      let st2 := emitOp (.jmf 0) st1
      let st3 := cexpr thenE st2
      let elseLabel := curLen st3
      let st4 := emitOp (.jmp 0) st3
      let st5 := patchOp thenLabel (.jmf (curLen st4)) st4
      let st6 := cexpr elseE st5
      patchOp elseLabel (.jmp (curLen st6)) st6
  | .whenE scrut arms wc, st =>
      let st1 := cexpr scrut st
      let p := cwhenArms arms st1 []
      let st3 :=
        (match wc with
         | some (some bind, body) => cexpr body (emitSave bind p.1).2
         | some (none, body) => cexpr body p.1
         | none => emitConst .nil (emitOp .pop p.1))
      let ip := curLen st3
      p.2.foldl (fun t j => patchOp j (.jmp ip) t) st3
  | .letE bind value, st =>
      let st1 := cexpr value st
      let st2 := (emitSave bind st1).2
      emitConst .nil st2
  | .defE bind value, st =>
      let st1 := cexpr value st
      let st2 := (emitSave bind st1).2
      emitConst .nil st2
  | .binary left op right, st =>
      if op = .and then
        let st1 := cexpr left st
        let st2 := emitOp .dup st1
        let thenLabel := curLen st2
        let st3 := emitOp (.jmf 0) st2
        let st4 := emitOp .pop st3
        let st5 := cexpr right st4
        patchOp thenLabel (.jmf (curLen st5)) st5
      else if op = .or then
        let st1 := cexpr left st
        let st2 := emitOp .dup st1
        let st3 := emitOp .notOp st2
        let thenLabel := curLen st3
        let st4 := emitOp (.jmf 0) st3
        let st5 := cexpr right st4
        patchOp thenLabel (.jmf (curLen st5)) st5
      else
        let st1 := cexpr left st
        let st2 := cexpr right st1
        emitOps (binOpOps op) st2
  | .listE xs, st =>
      let st1 := emitConst (.list []) st
      clistItems xs st1
  | .cons head tl, st =>
      let st1 := cexpr tl st
      let st2 := cexpr head st1
      emitOp .prep st2
  | .unop op right, st =>
      let st1 := cexpr right st
      emitOps (unOpOps op) st1
  | .doE body, st =>
      let st1 := cdoList body st
      setTop (fun sc => { sc with opcodes := sc.opcodes.dropLast }) st1
  | .field obj name, st =>
      let st1 := cexpr obj st
      emitOp (.get name) st1
  | .methodRef ty name, st =>
      let st1 := cexpr ty st
      emitOp (.ref name) st1
  | .newE ty args, st =>
      let st1 := crevList args st
      let st2 := cexpr ty st1
      emitOp (.new args.length) st2
  | .invoke obj name args, st =>
      let st1 := crevList args st
      let st2 := cexpr obj st1
      let st3 := emitOp .dup st2
      let st4 := emitOp .typeOp st3
      let st5 := emitOp (.ref name) st4
      emitOp (.call (args.length + 1)) st5
  | .tryE body bind rescue, st =>
      let tryLabel := curLen st
      let st1 := emitOp (.tryOp 0) st
      let st2 := cexpr body st1
      let st3 := emitOp .endTry st2
      let endLabel := curLen st3
      let st4 := emitOp (.jmp 0) st3
      let st5 := patchOp tryLabel (.tryOp (curLen st4)) st4
      let st6 := emitOp .pop st5
      let st7 := (emitSave bind st6).2
      let st8 := cexpr rescue st7
      patchOp endLabel (.jmp (curLen st8)) st8
termination_by structural e => e

/-- Argument emission of Compiler::expr's App, New and Invoke arms: compile
the arguments in reverse surface order, so the first argument lands on
top. -/
def crevList : List Expr → CompState → CompState
  | [], st => st
  | a :: rest, st => cexpr a (crevList rest st)
termination_by structural es => es

/-- List-literal emission: elements in reverse order, each followed by
Prep. -/
def clistItems : List Expr → CompState → CompState
  | [], st => st
  | x :: rest, st => emitOp .prep (cexpr x (clistItems rest st))
termination_by structural es => es

/-- Sequence emission for do-blocks: each expression followed by Pop (the
caller drops the trailing Pop afterwards). -/
def cdoList : List Expr → CompState → CompState
  | [], st => st
  | e :: rest, st => cdoList rest (emitOp .pop (cexpr e st))
termination_by structural es => es

/-- The per-arm loop of Compiler::when_expr: Dup the scrutinee, compile the
arm condition, Eq, a placeholder Jmf to the next arm, Pop the scrutinee
copy, the arm body, a placeholder Jmp to the end (its index is accumulated
for the final patch), then patch the Jmf to the current end. -/
def cwhenArms : List (Expr × Expr) → CompState → List ℕ → CompState × List ℕ
  | [], st, jmps => (st, jmps)
  | (cond, body) :: rest, st, jmps =>
      let st1 := emitOp .dup st
      let st2 := cexpr cond st1
      let st3 := emitOp .eq st2
      let label := curLen st3
      let st4 := emitOp (.jmf 0) st3
      let st5 := emitOp .pop st4
      let st6 := cexpr body st5
      let j := curLen st6
      let st7 := emitOp (.jmp 0) st6
      let st8 := patchOp label (.jmf (curLen st7)) st7
      cwhenArms rest st8 (jmps ++ [j])
termination_by structural arms _ _ => arms
end

/-- Compiler::lambda_expr: push a fresh scope holding the parameter slots
and their leading Save opcodes, compile the body, pop the scope, and wrap
its instruction vector in a Fn of the declared arity with no bound
arguments (the lambda arm of cexpr inlines this same sequence before
emitting the Fn constant). -/
def clambda (args : List VarDecl) (body : Expr) (st : CompState) : Fn × CompState :=
  let st1 := { st with scopeStack := lambdaScope args :: st.scopeStack }
  let st2 := cexpr body st1
  let popped := topScope st2
  let st3 := { st2 with scopeStack := st2.scopeStack.tail }
  (⟨args.length, [], .bytecode popped.opcodes⟩, st3)

/-- The method-table loop of Compiler::typedef: each method body is
compiled as a lambda and inserted into the table (newest binding first, as
EnvTable insertion shadows). -/
def cmethods : List MDef → List (Symbol × Value) → CompState →
    List (Symbol × Value) × CompState
  | [], table, st => (table, st)
  | m :: rest, table, st =>
      let (f, st1) := clambda m.args m.body st
      cmethods rest ((m.name, .fn f) :: table) st1

/-- Compiler::typedef: build the method table, attach the optional
initializer, emit the assembled Type as a constant and bind it globally. -/
def ctypedef (decl : VarDecl) (methods : List MDef) (initM : Option MDef)
    (params : List Symbol) (st : CompState) : CompState :=
  let (table, st1) := cmethods methods [] st
  let (initFn, st2) :=
    (match initM with
     | none => (none, st1)
     | some m =>
         let (f, st') := clambda m.args m.body st1
         (some f, st'))
  let ty : YexType := ⟨decl.name, table, params, initFn⟩
  let st3 := emitConst (.type ty) st2
  emitOp (.savg decl.name) st3

/-- Compiler::stmt. -/
def cstmt : Stmt → CompState → CompState
  | .defS bind value, st => emitOp (.savg bind.name) (cexpr value st)
  | .letS bind value, st => emitOp (.savg bind.name) (cexpr value st)
  | .classS name methods params initM, st =>
      ctypedef name methods initM (params.map (fun p => p.name)) st
  | .exprS e, st => cexpr e st

/-- The statement loop of Compiler::compile_stmts. -/
def cstmts : List Stmt → CompState → CompState
  | [], st => st
  | s :: rest, st => cstmts rest (cstmt s st)

/-- Compiler::compile_expr: compile one expression in a fresh compiler with
one pushed scope; returns the scope's instruction vector and the pool. -/
def compileExpr (e : Expr) : Bytecode × List Value :=
  let st := cexpr e ⟨[⟨[], []⟩], []⟩
  ((topScope st).opcodes, st.constants)

/-- Compiler::compile_stmts: compile a program in a fresh compiler with one
pushed scope. -/
def compileStmts (stmts : List Stmt) : Bytecode × List Value :=
  let st := cstmts stmts ⟨[⟨[], []⟩], []⟩
  ((topScope st).opcodes, st.constants)

/-- Equality under numEq implies propositional equality: the only
reflexivity failure of the f64 model is NaN, on which numEq is false. -/
theorem numEq_eq {a b : YNum} (h : numEq a b = true) : a = b := by
  cases a <;> cases b <;> simp_all [numEq]

mutual
/-- Values the runtime equality accepts are equal: vbeq is a subrelation of
equality (it is not reflexive, failing on NaN and on the reference-compared
kinds). -/
theorem vbeq_eq_of_true : ∀ a b : Value, vbeq a b = true → a = b
  | .num x, b => by
      cases b <;> simp [vbeq] <;> intro h <;> exact numEq_eq h
  | .str x, b => by cases b <;> simp [vbeq]
  | .sym x, b => by cases b <;> simp [vbeq]
  | .bool x, b => by cases b <;> simp [vbeq]
  | .nil, b => by cases b <;> simp [vbeq]
  | .fn f, b => by cases b <;> simp [vbeq]
  | .type t, b => by cases b <;> simp [vbeq]
  | .inst i, b => by cases b <;> simp [vbeq]
  | .list xs, b => by
      cases b <;> simp [vbeq]
      intro h
      exact vbeqList_eq_of_true xs _ h
  | .tuple xs, b => by
      cases b <;> simp [vbeq]
      intro h
      exact vbeqList_eq_of_true xs _ h
  | .table xs, b => by
      cases b <;> simp [vbeq]
      intro h
      exact vbeqPairs_eq_of_true xs _ h

/-- List version of vbeq_eq_of_true. -/
theorem vbeqList_eq_of_true : ∀ xs ys : List Value, vbeqList xs ys = true → xs = ys
  | [], ys => by cases ys <;> simp [vbeqList]
  | x :: xs, ys => by
      cases ys with
      | nil => simp [vbeqList]
      | cons y ys =>
          simp only [vbeqList, Bool.and_eq_true, List.cons.injEq]
          intro h
          exact ⟨vbeq_eq_of_true x y h.1, vbeqList_eq_of_true xs ys h.2⟩

/-- Keyed-list version of vbeq_eq_of_true. -/
theorem vbeqPairs_eq_of_true :
    ∀ xs ys : List (Symbol × Value), vbeqPairs xs ys = true → xs = ys
  | [], ys => by cases ys <;> simp [vbeqPairs]
  | (k, v) :: xs, ys => by
      cases ys with
      | nil => simp [vbeqPairs]
      | cons p ys =>
          obtain ⟨l, w⟩ := p
          simp only [vbeqPairs, Bool.and_eq_true, List.cons.injEq, Prod.mk.injEq,
            decide_eq_true_eq]
          intro h
          exact ⟨⟨h.1.1, vbeq_eq_of_true v w h.1.2⟩, vbeqPairs_eq_of_true xs ys h.2⟩
end

/-- Opcodes the dispatch loop forwards to run_op: everything except the
five control opcodes it handles inline. -/
def isDispatch : OpCode → Bool
  | .tryOp _ => false
  | .endTry => false
  | .jmp _ => false
  | .jmf _ => false
  | .tcall _ => false
  | _ => true

/-- An index holding some opcode is in range and determines the element. -/
theorem getElem_of_getElem? {code : Bytecode} {ip : ℕ} {op : OpCode}
    (hop : code[ip]? = some op) :
    ∃ h : ip < code.length, code[ip] = op := by
  have hlt : ip < code.length := by
    by_contra hge
    rw [List.getElem?_eq_none (by omega)] at hop
    exact Option.noConfusion hop
  refine ⟨hlt, ?_⟩
  rw [List.getElem?_eq_getElem hlt] at hop
  exact Option.some.inj hop

/-- The dispatch loop on a run_op-handled opcode: unfold one iteration. -/
theorem runLoop_dispatch (natSem : NatSem) (f : ℕ) (code : Bytecode)
    (ts : List ℕ) (ip fl : ℕ) (s : VMState) (op : OpCode)
    (hop : code[ip]? = some op) (hd : isDispatch op = true) :
    runLoop natSem (f + 1) code ts ip fl s =
      (match runOp natSem f op fl s with
       | ((s1, fl1), .ok) => runLoop natSem f code ts (ip + 1) fl1 s1
       | ((s1, fl1), .err e) =>
           (match ts with
            | [] => (s1, .err e)
            | t :: ts' => runLoop natSem f code ts' (t + 1) fl1 (spush s1 (.sym e)))
       | ((s1, _), .fuelOut) => (s1, .fuelOut)) := by
  obtain ⟨hlt, heq⟩ := getElem_of_getElem? hop
  rw [runLoop]
  rw [dif_pos hlt]
  rw [heq]
  cases op <;> first
    | rfl
    | exact absurd hd (by simp [isDispatch])

/-- C1 (amended): when run_op returns an error and the handler stack is
non-empty, the VM pops the top handler offset t, pushes the error kind as a
Sym, sets ip to t, and the loop's shared increment then resumes execution at
t + 1 (one past the saved offset, skipping the instruction at t). -/
theorem C1_amended (natSem : NatSem) (f : ℕ) (code : Bytecode) (t : ℕ)
    (ts : List ℕ) (ip fl : ℕ) (s s' : VMState) (fl' : ℕ) (e : Symbol)
    (op : OpCode) (hop : code[ip]? = some op) (hd : isDispatch op = true)
    (herr : runOp natSem f op fl s = ((s', fl'), .err e)) :
    runLoop natSem (f + 1) code (t :: ts) ip fl s
      = runLoop natSem f code ts (t + 1) fl' (spush s' (.sym e)) := by
  rw [runLoop_dispatch natSem f code (t :: ts) ip fl s op hop hd, herr]

/-- Witness for C1_amended at a concrete input: an undefined global raises
NameError under a handler with offset 7, and the loop continues at offset
8 with the error symbol pushed. -/
theorem C1_amended_witness :
    (([.loag "x", .pop] : Bytecode)[0]? = some (.loag "x")) ∧
    isDispatch (.loag "x") = true ∧
    runOp natSem0 3 (.loag "x") 0 (freshVM []) = ((freshVM [], 0), .err "NameError") ∧
    runLoop natSem0 4 [.loag "x", .pop] [7] 0 0 (freshVM [])
      = runLoop natSem0 3 [.loag "x", .pop] [] 8 0 (spush (freshVM []) (.sym "NameError")) :=
  ⟨rfl, rfl, rfl,
    C1_amended natSem0 3 [.loag "x", .pop] 7 [] 0 0 (freshVM []) (freshVM []) 0
      "NameError" (.loag "x") rfl rfl rfl⟩

/-- C1 (counterexample): the claim as stated, that execution resumes at
exactly the saved offset, is false.  For the bytecode [Loag x, Pop] with
handler offset 1, the actual run skips the Pop at offset 1 and finishes
with the error symbol still on the stack, while resumption at the offset
itself would have popped it. -/
theorem C1_counterexample :
    ¬ (∀ (natSem : NatSem) (f : ℕ) (code : Bytecode) (t : ℕ) (ts : List ℕ)
        (ip fl : ℕ) (s s' : VMState) (fl' : ℕ) (e : Symbol) (op : OpCode),
        code[ip]? = some op → isDispatch op = true →
        runOp natSem f op fl s = ((s', fl'), .err e) →
        runLoop natSem (f + 1) code (t :: ts) ip fl s
          = runLoop natSem f code ts t fl' (spush s' (.sym e))) := by
  intro h
  have h2 := h natSem0 3 [.loag "x", .pop] 1 [] 0 0 (freshVM []) (freshVM []) 0
    "NameError" (.loag "x") rfl rfl rfl
  have e1 : (runLoop natSem0 4 [OpCode.loag "x", OpCode.pop] [1] 0 0 (freshVM [])).1.stack
      = [Value.sym "NameError"] := rfl
  have e2 : (runLoop natSem0 3 [OpCode.loag "x", OpCode.pop] [] 1 0
      (spush (freshVM []) (Value.sym "NameError"))).1.stack = [] := rfl
  rw [h2] at e1
  rw [e1] at e2
  exact List.noConfusion e2

/-- C2: executing TCall(n) pops the top of the operand stack; given that it
is a Fn, the frame restarts at ip 0 with the same frame-locals counter and
the remaining stack (the already-pushed arguments) exactly when the body is
bytecode identical to the executing frame and the arity equals n; a
bytecode mismatch, an arity mismatch, or a native body makes the whole run
fail with TailCallError (the error bypasses the handler stack). -/
theorem C2_tail_call (natSem : NatSem) (f : ℕ) (code : Bytecode) (ts : List ℕ)
    (ip fl : ℕ) (s : VMState) (n : ℕ) (fn : Fn) (rest : List Value)
    (hip : code[ip]? = some (.tcall n)) (hstack : s.stack = .fn fn :: rest) :
    (fn.body = .bytecode code → fn.arity = n →
       runLoop natSem (f + 1) code ts ip fl s
         = runLoop natSem f code ts 0 fl { s with stack := rest }) ∧
    (∀ b, fn.body = .bytecode b → (b ≠ code ∨ fn.arity ≠ n) →
       runLoop natSem (f + 1) code ts ip fl s
         = ({ s with stack := rest }, .err "TailCallError")) ∧
    (∀ id, fn.body = .native id →
       runLoop natSem (f + 1) code ts ip fl s
         = ({ s with stack := rest }, .err "TailCallError")) := by
  obtain ⟨hlt, heq⟩ := getElem_of_getElem? hip
  have hpop : spop s = (.fn fn, { s with stack := rest }) := by
    rw [spop, hstack]
  refine ⟨?_, ?_, ?_⟩
  · intro hb ha
    rw [runLoop, dif_pos hlt, heq]
    simp only [validTailCall, hpop, hb, ha]
    rw [if_neg (by simp), if_neg (by simp)]
  · intro b hb hne
    rw [runLoop, dif_pos hlt, heq]
    simp only [validTailCall, hpop, hb]
    rcases hne with hne | hne
    · by_cases harr : fn.arity = n
      · rw [if_neg (by simp [harr]), if_pos hne]
      · rw [if_pos harr]
    · rw [if_pos hne]
  · intro id hb
    rw [runLoop, dif_pos hlt, heq]
    simp only [validTailCall, hpop, hb]

/-- Witness for C2_tail_call at concrete inputs: a matching self tail call
restarts the frame, and an arity mismatch raises TailCallError. -/
theorem C2_tail_call_witness :
    (([.tcall 0] : Bytecode)[0]? = some (.tcall 0)) ∧
    (spush (freshVM []) (.fn ⟨0, [], .bytecode [.tcall 0]⟩)).stack
        = .fn ⟨0, [], .bytecode [.tcall 0]⟩ :: [] ∧
    runLoop natSem0 2 [.tcall 0] [] 0 0 (spush (freshVM []) (.fn ⟨0, [], .bytecode [.tcall 0]⟩))
      = runLoop natSem0 1 [.tcall 0] [] 0 0
          { spush (freshVM []) (.fn ⟨0, [], .bytecode [.tcall 0]⟩) with stack := [] } ∧
    runLoop natSem0 2 [.tcall 0] [] 0 0 (spush (freshVM []) (.fn ⟨1, [], .bytecode [.tcall 0]⟩))
      = ({ spush (freshVM []) (.fn ⟨1, [], .bytecode [.tcall 0]⟩) with stack := [] },
          .err "TailCallError") := by
  refine ⟨rfl, rfl, ?_, ?_⟩
  · exact (C2_tail_call natSem0 1 [.tcall 0] [] 0 0 _ 0 ⟨0, [], .bytecode [.tcall 0]⟩ []
      rfl rfl).1 rfl rfl
  · exact (C2_tail_call natSem0 1 [.tcall 0] [] 0 0 _ 0 ⟨1, [], .bytecode [.tcall 0]⟩ []
      rfl rfl).2.1 [.tcall 0] rfl (Or.inr (by decide))

/-- C7 (counterexample): the claim that ordered comparison is defined for
every pair of Num operands is false: two NaN operands are both Num, yet
ord_cmp raises TypeError (f64 partial_cmp is undefined on NaN). -/
theorem C7_counterexample :
    ordCmp (.num .nan) (.num .nan) = .error "TypeError" ∧
    ¬ (∀ x y : YNum, ∃ o, ordCmp (.num x) (.num y) = .ok o) := by
  refine ⟨rfl, ?_⟩
  intro h
  obtain ⟨o, ho⟩ := h .nan .nan
  simp [ordCmp, numCmp] at ho

/-- C7 (amended): ord_cmp succeeds exactly on two Num operands whose f64
comparison is defined: any pairing with a non-Num fails with TypeError, two
Nums with a NaN among them fail with TypeError, and two NaN-free Nums
compare successfully; and the Less and LessEq opcodes pop the top two
values, compare the lower one (left) against the top (right), and push the
boolean is-less-than (respectively is-at-most) result. -/
theorem C7_amended :
    (∀ a b : Value,
      (((∀ x, a ≠ Value.num x) ∨ (∀ y, b ≠ Value.num y)) →
          ordCmp a b = .error "TypeError") ∧
      (∀ x y, a = .num x → b = .num y →
        ((x = .nan ∨ y = .nan) → ordCmp a b = .error "TypeError") ∧
        (x ≠ .nan → y ≠ .nan → ∃ o, numCmp x y = some o ∧ ordCmp a b = .ok o))) ∧
    (∀ (natSem : NatSem) (f fl : ℕ) (s : VMState) (x y : YNum) (rest : List Value),
      s.stack = .num y :: .num x :: rest → x ≠ .nan → y ≠ .nan →
      ∃ o, numCmp x y = some o ∧
        runOp natSem (f + 1) .less fl s
          = ((spush { s with stack := rest } (.bool o.isLT), fl), .ok) ∧
        runOp natSem (f + 1) .lessEq fl s
          = ((spush { s with stack := rest } (.bool o.isLE), fl), .ok)) := by
  constructor
  · intro a b
    constructor
    · intro h
      cases a <;> cases b <;> simp [ordCmp] <;>
        first
          | (rcases h with h | h
             · exact absurd rfl (h _)
             · exact absurd rfl (h _))
          | rfl
    · intro x y ha hb
      subst ha; subst hb
      constructor
      · intro h
        rcases h with h | h
        · subst h
          cases y <;> simp [ordCmp, numCmp]
        · subst h
          cases x <;> simp [ordCmp, numCmp]
      · intro hx hy
        cases x <;> cases y <;> simp_all [ordCmp, numCmp]
  · intro natSem f fl s x y rest hstack hx hy
    have hnum : ∃ o, numCmp x y = some o := by
      cases x <;> cases y <;> simp_all [numCmp]
    obtain ⟨o, ho⟩ := hnum
    refine ⟨o, ho, ?_, ?_⟩
    · rw [runOp]
      simp only [popTwo, spop, hstack]
      rw [ordCmp, ho]
    · rw [runOp]
      simp only [popTwo, spop, hstack]
      rw [ordCmp, ho]

/-- Witness for C7_amended at concrete inputs: a string never compares, a
NaN operand fails even against a Num, finite numbers compare, and the Less
and LessEq opcodes push the comparison of the lower stack value against the
top. -/
theorem C7_amended_witness :
    ordCmp (.str "a") .nil = .error "TypeError" ∧
    ordCmp (.num (.fin 1)) (.num .nan) = .error "TypeError" ∧
    (∃ o, numCmp (.fin 1) (.fin 2) = some o ∧ ordCmp (.num (.fin 1)) (.num (.fin 2)) = .ok o) ∧
    (∃ o, numCmp (.fin 1) (.fin 2) = some o ∧
      runOp natSem0 1 .less 0
          { freshVM [] with stack := [.num (.fin 2), .num (.fin 1)] }
        = ((spush { freshVM [] with stack := [] } (.bool o.isLT), 0), .ok) ∧
      runOp natSem0 1 .lessEq 0
          { freshVM [] with stack := [.num (.fin 2), .num (.fin 1)] }
        = ((spush { freshVM [] with stack := [] } (.bool o.isLE), 0), .ok)) := by
  refine ⟨?_, ?_, ?_, ?_⟩
  · exact ((C7_amended.1 (.str "a") .nil).1) (Or.inl (by intro x; exact fun h => Value.noConfusion h))
  · exact (((C7_amended.1 (.num (.fin 1)) (.num .nan)).2 (.fin 1) .nan rfl rfl).1) (Or.inr rfl)
  · exact ((C7_amended.1 (.num (.fin 1)) (.num (.fin 2))).2 (.fin 1) (.fin 2) rfl rfl).2
      (by simp) (by simp)
  · exact C7_amended.2 natSem0 0 0 _ (.fin 1) (.fin 2) [] rfl (by simp) (by simp)

/-- The AST of the spec's exception scenario: try (1 / 0) rescue e => e. -/
def tryDivAst : Expr :=
  .tryE (.binary (.lit (.num (.fin 1))) .div (.lit (.num (.fin 0)))) ⟨"e"⟩ (.varE "e")

/-- Compile-and-run of the scenario on a fresh VM (ample fuel; the run
takes six loop iterations). -/
def tryDivRun : VMState × Outcome :=
  vrun natSem0 50 (compileExpr tryDivAst).1 (freshVM (compileExpr tryDivAst).2)

/-- VirtualMachine::pop_last: the top of the operand stack, or Nil. -/
def popLast (s : VMState) : Value := s.stack.headD .nil

/-- C4 (counterexample): the claim that try (1 / 0) rescue e => e yields the
symbol TypeError or ValueError is false: the run terminates successfully,
but dividing the number one by the number zero succeeds under the source's
f64 division (impl_numeric accepts any two Nums), so the try body produces
positive infinity and the rescue arm never runs; the final value is a Num,
not a Sym. -/
theorem C4_counterexample :
    tryDivRun.2 = .ok ∧
    popLast tryDivRun.1 = .num (.inf true) ∧
    popLast tryDivRun.1 ≠ .sym "TypeError" ∧
    popLast tryDivRun.1 ≠ .sym "ValueError" := by
  refine ⟨rfl, rfl, ?_, ?_⟩ <;>
    · rw [show popLast tryDivRun.1 = .num (.inf true) from rfl]
      exact fun h => Value.noConfusion h

/-- C4 (amended): compiling and running try (1 / 0) rescue e => e on a
fresh VM terminates without aborting, and the whole expression's value is
the Num positive infinity: the division raises no error (the success path
EndTry and Jmp skips the rescue arm), it does not produce an error
symbol. -/
theorem C4_amended :
    tryDivRun.2 = .ok ∧ tryDivRun.1.stack = [.num (.inf true)] :=
  ⟨rfl, rfl⟩

/-- The instruction vector of the innermost scope. -/
def topOps (st : CompState) : Bytecode := (topScope st).opcodes

theorem topScope_setTop (f : Scope → Scope) (st : CompState) :
    topScope (setTop f st) = f (topScope st) := rfl

theorem topOps_emitOp (op : OpCode) (st : CompState) :
    topOps (emitOp op st) = topOps st ++ [op] := rfl

theorem consts_emitOp (op : OpCode) (st : CompState) :
    (emitOp op st).constants = st.constants := rfl

theorem tail_emitOp (op : OpCode) (st : CompState) :
    (emitOp op st).scopeStack.tail = st.scopeStack.tail := rfl

theorem topOps_patchOp (i : ℕ) (op : OpCode) (st : CompState) :
    topOps (patchOp i op st) = (topOps st).set i op := rfl

theorem consts_patchOp (i : ℕ) (op : OpCode) (st : CompState) :
    (patchOp i op st).constants = st.constants := rfl

theorem tail_patchOp (i : ℕ) (op : OpCode) (st : CompState) :
    (patchOp i op st).scopeStack.tail = st.scopeStack.tail := rfl

theorem curLen_eq (st : CompState) : curLen st = (topOps st).length := rfl

theorem consts_emitSave (bind : VarDecl) (st : CompState) :
    ((emitSave bind st).2).constants = st.constants := rfl

theorem tail_emitSave (bind : VarDecl) (st : CompState) :
    ((emitSave bind st).2).scopeStack.tail = st.scopeStack.tail := rfl

/-- A negative findPos answer means the predicate fails everywhere. -/
theorem findPos_none {p : α → Bool} {l : List α} (h : findPos p l = none) :
    ∀ x ∈ l, p x = false := by
  induction l with
  | nil => intro x hx; exact absurd hx (List.not_mem_nil x)
  | cons a l ih =>
      rw [findPos] at h
      by_cases hpa : p a = true
      · rw [if_pos hpa] at h; exact Option.noConfusion h
      · rw [if_neg hpa] at h
        have hl : findPos p l = none := by
          cases hfl : findPos p l with
          | none => rfl
          | some i => rw [hfl] at h; simp at h
        intro x hx
        cases hx with
        | head => simpa using hpa
        | tail _ hx => exact ih hl x hx

/-- A positive findPos answer points at an element satisfying the
predicate. -/
theorem findPos_some {p : α → Bool} :
    ∀ {l : List α} {i : ℕ}, findPos p l = some i → ∃ a, l[i]? = some a ∧ p a = true
  | [], i, h => Option.noConfusion h
  | a :: l, i, h => by
      rw [findPos] at h
      by_cases hpa : p a = true
      · rw [if_pos hpa] at h
        obtain rfl : (0 : ℕ) = i := Option.some.inj h
        exact ⟨a, by simp, hpa⟩
      · rw [if_neg hpa] at h
        cases hfl : findPos p l with
        | none => rw [hfl] at h; simp at h
        | some j =>
            rw [hfl] at h
            simp only [Option.map_some'] at h
            obtain rfl : j + 1 = i := Option.some.inj h
            obtain ⟨b, hb, hpb⟩ := findPos_some hfl
            exact ⟨b, by simpa using hb, hpb⟩

/-- Structural characterization of emit_lit: it pushes some pool index at
which the (possibly extended, by appending only) pool holds exactly the
literal's value. -/
theorem emitLit_spec (lit : Literal) (st : CompState) :
    ∃ idx cs, emitLit lit st = emitOp (.push idx) { st with constants := cs } ∧
      cs[idx]? = some (litToValue lit) ∧ ∃ δ, cs = st.constants ++ δ := by
  unfold emitLit
  cases hf : findPos (fun c => vbeq (litToValue lit) c) st.constants with
  | none =>
      exact ⟨st.constants.length, st.constants ++ [litToValue lit], rfl,
        by simp, [litToValue lit], rfl⟩
  | some idx =>
      obtain ⟨a, ha, hp⟩ := findPos_some hf
      obtain rfl := vbeq_eq_of_true _ _ hp
      exact ⟨idx, st.constants, rfl, ha, [], by simp⟩

/-- Structural characterization of emit_const, like emitLit_spec. -/
theorem emitConst_spec (v : Value) (st : CompState) :
    ∃ idx cs, emitConst v st = emitOp (.push idx) { st with constants := cs } ∧
      cs[idx]? = some v ∧ ∃ δ, cs = st.constants ++ δ := by
  unfold emitConst
  cases hf : findPos (fun c => vbeq c v) st.constants with
  | none =>
      exact ⟨st.constants.length, st.constants ++ [v], rfl, by simp, [v], rfl⟩
  | some idx =>
      obtain ⟨a, ha, hp⟩ := findPos_some hf
      obtain rfl := vbeq_eq_of_true _ _ hp
      exact ⟨idx, st.constants, rfl, ha, [], by simp⟩

/-- The de-duplication invariant of the constant pool: no value has two
entries equal to it under the runtime equality. -/
def NodupPool (cs : List Value) : Prop :=
  ∀ k : Value, cs.countP (fun c => vbeq c k) ≤ 1

/-- A singleton counts at most one. -/
theorem countP_singleton_le (p : Value → Bool) (v : Value) :
    List.countP p [v] ≤ 1 := by
  simp only [List.countP_cons, List.countP_nil]
  split <;> omega

/-- Appending a value no pool entry equals (entries compared on the left)
preserves the invariant. -/
theorem nodupPool_append_right {cs : List Value} {v : Value}
    (hn : NodupPool cs) (hg : ∀ c ∈ cs, vbeq c v = false) :
    NodupPool (cs ++ [v]) := by
  intro k
  rw [List.countP_append]
  by_cases hvk : vbeq v k = true
  · obtain rfl := vbeq_eq_of_true _ _ hvk
    have hz : cs.countP (fun c => vbeq c v) = 0 := by
      rw [List.countP_eq_zero]
      intro c hc
      simp [hg c hc]
    have := countP_singleton_le (fun c => vbeq c v) v
    omega
  · have hone : List.countP (fun c => vbeq c k) [v] = 0 := by
      simp only [List.countP_cons, List.countP_nil]
      rw [if_neg hvk]
    have := hn k
    omega

/-- Appending a value that equals no pool entry (candidate compared on the
left) preserves the invariant. -/
theorem nodupPool_append_left {cs : List Value} {v : Value}
    (hn : NodupPool cs) (hg : ∀ c ∈ cs, vbeq v c = false) :
    NodupPool (cs ++ [v]) := by
  intro k
  rw [List.countP_append]
  by_cases hvk : vbeq v k = true
  · obtain rfl := vbeq_eq_of_true _ _ hvk
    have hz : cs.countP (fun c => vbeq c v) = 0 := by
      rw [List.countP_eq_zero]
      intro c hc
      by_contra hck
      have hck2 : vbeq c v = true := by simpa using hck
      obtain rfl := vbeq_eq_of_true _ _ hck2
      rw [hg c hc] at hck2
      exact Bool.noConfusion hck2
    have := countP_singleton_le (fun c => vbeq c v) v
    omega
  · have hone : List.countP (fun c => vbeq c k) [v] = 0 := by
      simp only [List.countP_cons, List.countP_nil]
      rw [if_neg hvk]
    have := hn k
    omega

/-- One compilation step's effect on the pool: append-only extension that
preserves the de-duplication invariant. -/
def PoolStep (c c2 : List Value) : Prop :=
  (∃ δ, c2 = c ++ δ) ∧ (NodupPool c → NodupPool c2)

theorem poolStep_refl (c : List Value) : PoolStep c c :=
  ⟨⟨[], by simp⟩, fun h => h⟩

theorem poolStep_of_eq {c c2 : List Value} (h : c2 = c) : PoolStep c c2 :=
  h ▸ poolStep_refl c

theorem poolStep_trans {a b c : List Value} (h1 : PoolStep a b) (h2 : PoolStep b c) :
    PoolStep a c := by
  obtain ⟨⟨d1, hd1⟩, hp1⟩ := h1
  obtain ⟨⟨d2, hd2⟩, hp2⟩ := h2
  exact ⟨⟨d1 ++ d2, by rw [hd2, hd1, List.append_assoc]⟩, fun h => hp2 (hp1 h)⟩

/-- emit_lit is a pool step. -/
theorem poolStep_emitLit (lit : Literal) (st : CompState) :
    PoolStep st.constants (emitLit lit st).constants := by
  unfold emitLit
  cases hf : findPos (fun c => vbeq (litToValue lit) c) st.constants with
  | some idx => exact poolStep_refl _
  | none =>
      refine ⟨⟨[litToValue lit], rfl⟩, fun h => ?_⟩
      exact nodupPool_append_left h (findPos_none hf)

/-- emit_const is a pool step. -/
theorem poolStep_emitConst (v : Value) (st : CompState) :
    PoolStep st.constants (emitConst v st).constants := by
  unfold emitConst
  cases hf : findPos (fun c => vbeq c v) st.constants with
  | some idx => exact poolStep_refl _
  | none =>
      refine ⟨⟨[v], rfl⟩, fun h => ?_⟩
      exact nodupPool_append_right h (findPos_none hf)

theorem cexpr_lambda (args : List VarDecl) (body : Expr) (st : CompState) :
    cexpr (.lambda args body) st =
      (let st2 := cexpr body { st with scopeStack := lambdaScope args :: st.scopeStack }
       emitConst (.fn ⟨args.length, [], .bytecode (topScope st2).opcodes⟩)
         { st2 with scopeStack := st2.scopeStack.tail }) := rfl

theorem cexpr_app (callee : Expr) (args : List Expr) (tl : Bool) (st : CompState) :
    cexpr (.app callee args tl) st =
      (if tl then emitOp (.tcall args.length) (cexpr callee (crevList args st))
       else emitOp (.call args.length) (cexpr callee (crevList args st))) := rfl

theorem cexpr_varE (name : Symbol) (st : CompState) :
    cexpr (.varE name) st =
      (match localsGet (topScope st).locals name with
       | some idx => emitOp (.load idx) st
       | none => emitOp (.loag name) st) := rfl

theorem cexpr_ife (cond thenE elseE : Expr) (st : CompState) :
    cexpr (.ife cond thenE elseE) st =
      (let st1 := cexpr cond st
       let st3 := cexpr thenE (emitOp (.jmf 0) st1)
       let st4 := emitOp (.jmp 0) st3
       let st6 := cexpr elseE (patchOp (curLen st1) (.jmf (curLen st4)) st4)
       patchOp (curLen st3) (.jmp (curLen st6)) st6) := rfl

theorem cexpr_whenE_none (scrut : Expr) (arms : List (Expr × Expr)) (st : CompState) :
    cexpr (.whenE scrut arms none) st =
      (let p := cwhenArms arms (cexpr scrut st) []
       let st3 := emitConst .nil (emitOp .pop p.1)
       p.2.foldl (fun t j => patchOp j (.jmp (curLen st3)) t) st3) := rfl

theorem cexpr_whenE_wild (scrut : Expr) (arms : List (Expr × Expr)) (body : Expr)
    (st : CompState) :
    cexpr (.whenE scrut arms (some (none, body))) st =
      (let p := cwhenArms arms (cexpr scrut st) []
       let st3 := cexpr body p.1
       p.2.foldl (fun t j => patchOp j (.jmp (curLen st3)) t) st3) := rfl

theorem cexpr_whenE_bind (scrut : Expr) (arms : List (Expr × Expr)) (bind : VarDecl)
    (body : Expr) (st : CompState) :
    cexpr (.whenE scrut arms (some (some bind, body))) st =
      (let p := cwhenArms arms (cexpr scrut st) []
       let st3 := cexpr body (emitSave bind p.1).2
       p.2.foldl (fun t j => patchOp j (.jmp (curLen st3)) t) st3) := rfl

theorem cexpr_letE (bind : VarDecl) (value : Expr) (st : CompState) :
    cexpr (.letE bind value) st =
      emitConst .nil (emitSave bind (cexpr value st)).2 := rfl

theorem cexpr_defE (bind : VarDecl) (value : Expr) (st : CompState) :
    cexpr (.defE bind value) st =
      emitConst .nil (emitSave bind (cexpr value st)).2 := rfl

theorem cexpr_binary (left : Expr) (op : BinOp) (right : Expr) (st : CompState) :
    cexpr (.binary left op right) st =
      (if op = .and then
        (let st2 := emitOp .dup (cexpr left st)
         let st5 := cexpr right (emitOp .pop (emitOp (.jmf 0) st2))
         patchOp (curLen st2) (.jmf (curLen st5)) st5)
      else if op = .or then
        (let st3 := emitOp .notOp (emitOp .dup (cexpr left st))
         let st5 := cexpr right (emitOp (.jmf 0) st3)
         patchOp (curLen st3) (.jmf (curLen st5)) st5)
      else emitOps (binOpOps op) (cexpr right (cexpr left st))) := rfl

theorem cexpr_listE (xs : List Expr) (st : CompState) :
    cexpr (.listE xs) st = clistItems xs (emitConst (.list []) st) := rfl

theorem cexpr_cons (head tl : Expr) (st : CompState) :
    cexpr (.cons head tl) st = emitOp .prep (cexpr head (cexpr tl st)) := rfl

theorem cexpr_unop (op : UnOp) (right : Expr) (st : CompState) :
    cexpr (.unop op right) st = emitOps (unOpOps op) (cexpr right st) := rfl

theorem cexpr_doE (body : List Expr) (st : CompState) :
    cexpr (.doE body) st =
      setTop (fun sc => { sc with opcodes := sc.opcodes.dropLast }) (cdoList body st) := rfl

theorem cexpr_field (obj : Expr) (name : Symbol) (st : CompState) :
    cexpr (.field obj name) st = emitOp (.get name) (cexpr obj st) := rfl

theorem cexpr_methodRef (ty : Expr) (name : Symbol) (st : CompState) :
    cexpr (.methodRef ty name) st = emitOp (.ref name) (cexpr ty st) := rfl

theorem cexpr_newE (ty : Expr) (args : List Expr) (st : CompState) :
    cexpr (.newE ty args) st =
      emitOp (.new args.length) (cexpr ty (crevList args st)) := rfl

theorem cexpr_invoke (obj : Expr) (name : Symbol) (args : List Expr) (st : CompState) :
    cexpr (.invoke obj name args) st =
      emitOp (.call (args.length + 1))
        (emitOp (.ref name) (emitOp .typeOp (emitOp .dup (cexpr obj (crevList args st))))) := rfl

theorem cexpr_tryE (body : Expr) (bind : VarDecl) (rescue : Expr) (st : CompState) :
    cexpr (.tryE body bind rescue) st =
      (let st2 := cexpr body (emitOp (.tryOp 0) st)
       let st4 := emitOp (.jmp 0) (emitOp .endTry st2)
       let st8 := cexpr rescue
         (emitSave bind (emitOp .pop (patchOp (curLen st) (.tryOp (curLen st4)) st4))).2
       patchOp (curLen (emitOp .endTry st2)) (.jmp (curLen st8)) st8) := rfl

theorem crevList_nil (st : CompState) : crevList [] st = st := rfl

theorem crevList_cons (a : Expr) (rest : List Expr) (st : CompState) :
    crevList (a :: rest) st = cexpr a (crevList rest st) := rfl

theorem clistItems_nil (st : CompState) : clistItems [] st = st := rfl

theorem clistItems_cons (x : Expr) (rest : List Expr) (st : CompState) :
    clistItems (x :: rest) st = emitOp .prep (cexpr x (clistItems rest st)) := rfl

theorem cdoList_nil (st : CompState) : cdoList [] st = st := rfl

theorem cdoList_cons (e : Expr) (rest : List Expr) (st : CompState) :
    cdoList (e :: rest) st = cdoList rest (emitOp .pop (cexpr e st)) := rfl

theorem cwhenArms_nil (st : CompState) (jmps : List ℕ) :
    cwhenArms [] st jmps = (st, jmps) := rfl

theorem cwhenArms_cons (cond body : Expr) (rest : List (Expr × Expr))
    (st : CompState) (jmps : List ℕ) :
    cwhenArms ((cond, body) :: rest) st jmps =
      (let st3 := emitOp .eq (cexpr cond (emitOp .dup st))
       let st6 := cexpr body (emitOp .pop (emitOp (.jmf 0) st3))
       let st8 := patchOp (curLen st3) (.jmf (curLen (emitOp (.jmp 0) st6))) (emitOp (.jmp 0) st6)
       cwhenArms rest st8 (jmps ++ [curLen st6])) := rfl

theorem consts_setTop (f : Scope → Scope) (st : CompState) :
    (setTop f st).constants = st.constants := rfl

theorem consts_emitOps (ops : List OpCode) (st : CompState) :
    (emitOps ops st).constants = st.constants := by
  induction ops generalizing st with
  | nil => rfl
  | cons o ops ih => simpa [emitOps, List.foldl_cons] using ih (emitOp o st)

theorem consts_foldl_patch (js : List ℕ) (tgt : ℕ) (st : CompState) :
    (js.foldl (fun t j => patchOp j (.jmp tgt) t) st).constants = st.constants := by
  induction js generalizing st with
  | nil => rfl
  | cons j js ih => simpa [List.foldl_cons] using ih (patchOp j (.jmp tgt) st)

mutual
/-- The pool effect of compiling one expression: an append-only extension
preserving the de-duplication invariant. -/
theorem cexpr_pool : ∀ (e : Expr) (st : CompState),
    PoolStep st.constants (cexpr e st).constants
  | .lit l, st => poolStep_emitLit l st
  | .lambda args body, st => by
      rw [cexpr_lambda]
      refine poolStep_trans ?_ (poolStep_emitConst _ _)
      exact cexpr_pool body _
  | .app callee args tl, st => by
      rw [cexpr_app]
      cases tl
      · rw [if_neg (by simp)]
        simp only [consts_emitOp]
        exact poolStep_trans (crevList_pool args st) (cexpr_pool callee _)
      · rw [if_pos rfl]
        simp only [consts_emitOp]
        exact poolStep_trans (crevList_pool args st) (cexpr_pool callee _)
  | .varE name, st => by
      rw [cexpr_varE]
      cases localsGet (topScope st).locals name <;> exact poolStep_refl _
  | .ife cond thenE elseE, st => by
      rw [cexpr_ife]
      simp only [consts_patchOp]
      refine poolStep_trans ?_ (cexpr_pool elseE _)
      simp only [consts_patchOp, consts_emitOp]
      refine poolStep_trans ?_ (cexpr_pool thenE _)
      simp only [consts_emitOp]
      exact cexpr_pool cond st
  | .whenE scrut arms none, st => by
      rw [cexpr_whenE_none]
      simp only [consts_foldl_patch]
      refine poolStep_trans ?_ (poolStep_emitConst _ _)
      simp only [consts_emitOp]
      exact poolStep_trans (cexpr_pool scrut st) (cwhenArms_pool arms _ [])
  | .whenE scrut arms (some (none, body)), st => by
      rw [cexpr_whenE_wild]
      simp only [consts_foldl_patch]
      refine poolStep_trans ?_ (cexpr_pool body _)
      exact poolStep_trans (cexpr_pool scrut st) (cwhenArms_pool arms _ [])
  | .whenE scrut arms (some (some bind, body)), st => by
      rw [cexpr_whenE_bind]
      simp only [consts_foldl_patch]
      refine poolStep_trans ?_ (cexpr_pool body _)
      simp only [consts_emitSave]
      exact poolStep_trans (cexpr_pool scrut st) (cwhenArms_pool arms _ [])
  | .letE bind value, st => by
      rw [cexpr_letE]
      refine poolStep_trans ?_ (poolStep_emitConst _ _)
      simp only [consts_emitSave]
      exact cexpr_pool value st
  | .defE bind value, st => by
      rw [cexpr_defE]
      refine poolStep_trans ?_ (poolStep_emitConst _ _)
      simp only [consts_emitSave]
      exact cexpr_pool value st
  | .binary left op right, st => by
      rw [cexpr_binary]
      by_cases ha : op = BinOp.and
      · rw [if_pos ha]
        simp only [consts_patchOp]
        refine poolStep_trans ?_ (cexpr_pool right _)
        simp only [consts_emitOp]
        exact cexpr_pool left st
      · rw [if_neg ha]
        by_cases ho : op = BinOp.or
        · rw [if_pos ho]
          simp only [consts_patchOp]
          refine poolStep_trans ?_ (cexpr_pool right _)
          simp only [consts_emitOp]
          exact cexpr_pool left st
        · rw [if_neg ho]
          simp only [consts_emitOps]
          refine poolStep_trans ?_ (cexpr_pool right _)
          exact cexpr_pool left st
  | .listE xs, st => by
      rw [cexpr_listE]
      exact poolStep_trans (poolStep_emitConst (.list []) st) (clistItems_pool xs _)
  | .cons head tl, st => by
      rw [cexpr_cons]
      simp only [consts_emitOp]
      exact poolStep_trans (cexpr_pool tl st) (cexpr_pool head _)
  | .unop op right, st => by
      rw [cexpr_unop]
      simp only [consts_emitOps]
      exact cexpr_pool right st
  | .doE body, st => by
      rw [cexpr_doE]
      simp only [consts_setTop]
      exact cdoList_pool body st
  | .field obj name, st => by
      rw [cexpr_field]
      simp only [consts_emitOp]
      exact cexpr_pool obj st
  | .methodRef ty name, st => by
      rw [cexpr_methodRef]
      simp only [consts_emitOp]
      exact cexpr_pool ty st
  | .newE ty args, st => by
      rw [cexpr_newE]
      simp only [consts_emitOp]
      exact poolStep_trans (crevList_pool args st) (cexpr_pool ty _)
  | .invoke obj name args, st => by
      rw [cexpr_invoke]
      simp only [consts_emitOp]
      exact poolStep_trans (crevList_pool args st) (cexpr_pool obj _)
  | .tryE body bind rescue, st => by
      rw [cexpr_tryE]
      simp only [consts_patchOp]
      refine poolStep_trans ?_ (cexpr_pool rescue _)
      simp only [consts_emitSave, consts_emitOp, consts_patchOp]
      exact cexpr_pool body _

/-- Pool effect of reverse argument emission. -/
theorem crevList_pool : ∀ (es : List Expr) (st : CompState),
    PoolStep st.constants (crevList es st).constants
  | [], st => poolStep_refl _
  | a :: rest, st => by
      rw [crevList_cons]
      exact poolStep_trans (crevList_pool rest st) (cexpr_pool a _)

/-- Pool effect of list-literal emission. -/
theorem clistItems_pool : ∀ (es : List Expr) (st : CompState),
    PoolStep st.constants (clistItems es st).constants
  | [], st => poolStep_refl _
  | x :: rest, st => by
      rw [clistItems_cons]
      simp only [consts_emitOp]
      exact poolStep_trans (clistItems_pool rest st) (cexpr_pool x _)

/-- Pool effect of do-block emission. -/
theorem cdoList_pool : ∀ (es : List Expr) (st : CompState),
    PoolStep st.constants (cdoList es st).constants
  | [], st => poolStep_refl _
  | e :: rest, st => by
      rw [cdoList_cons]
      refine poolStep_trans ?_ (cdoList_pool rest _)
      simp only [consts_emitOp]
      exact cexpr_pool e st
/-- Pool effect of the when-arm loop. -/
theorem cwhenArms_pool : ∀ (arms : List (Expr × Expr)) (st : CompState) (jmps : List ℕ),
    PoolStep st.constants (cwhenArms arms st jmps).1.constants
  | [], st, jmps => poolStep_refl _
  | (cond, body) :: rest, st, jmps => by
      rw [cwhenArms_cons]
      refine poolStep_trans ?_ (cwhenArms_pool rest _ _)
      simp only [consts_patchOp, consts_emitOp]
      refine poolStep_trans ?_ (cexpr_pool body _)
      simp only [consts_emitOp]
      exact cexpr_pool cond _
end

theorem clambda_consts (args : List VarDecl) (body : Expr) (st : CompState) :
    (clambda args body st).2.constants
      = (cexpr body { st with scopeStack := lambdaScope args :: st.scopeStack }).constants := rfl

/-- Pool effect of lambda compilation. -/
theorem clambda_pool (args : List VarDecl) (body : Expr) (st : CompState) :
    PoolStep st.constants (clambda args body st).2.constants := by
  rw [clambda_consts]
  exact cexpr_pool body _

/-- Pool effect of the method-table loop. -/
theorem cmethods_pool : ∀ (ms : List MDef) (table : List (Symbol × Value)) (st : CompState),
    PoolStep st.constants (cmethods ms table st).2.constants
  | [], table, st => poolStep_refl _
  | m :: rest, table, st => by
      rw [cmethods]
      exact poolStep_trans (clambda_pool m.args m.body st) (cmethods_pool rest _ _)

/-- Pool effect of a type declaration. -/
theorem ctypedef_pool (decl : VarDecl) (methods : List MDef) (initM : Option MDef)
    (params : List Symbol) (st : CompState) :
    PoolStep st.constants (ctypedef decl methods initM params st).constants := by
  rw [ctypedef]
  cases initM with
  | none =>
      simp only [consts_emitOp]
      exact poolStep_trans (cmethods_pool methods [] st) (poolStep_emitConst _ _)
  | some m =>
      simp only [consts_emitOp]
      refine poolStep_trans ?_ (poolStep_emitConst _ _)
      exact poolStep_trans (cmethods_pool methods [] st) (clambda_pool m.args m.body _)

/-- Pool effect of one statement. -/
theorem cstmt_pool : ∀ (stmt : Stmt) (st : CompState),
    PoolStep st.constants (cstmt stmt st).constants
  | .defS bind value, st => by
      rw [cstmt]
      simp only [consts_emitOp]
      exact cexpr_pool value st
  | .letS bind value, st => by
      rw [cstmt]
      simp only [consts_emitOp]
      exact cexpr_pool value st
  | .classS name methods params initM, st => by
      rw [cstmt]
      exact ctypedef_pool name methods initM _ st
  | .exprS e, st => by
      rw [cstmt]
      exact cexpr_pool e st

/-- Pool effect of a statement sequence. -/
theorem cstmts_pool : ∀ (stmts : List Stmt) (st : CompState),
    PoolStep st.constants (cstmts stmts st).constants
  | [], st => poolStep_refl _
  | s :: rest, st => by
      rw [cstmts]
      exact poolStep_trans (cstmt_pool s st) (cstmts_pool rest _)

/-- Compiling a concatenation continues from the intermediate state. -/
theorem cstmts_append (a b : List Stmt) (st : CompState) :
    cstmts (a ++ b) st = cstmts b (cstmts a st) := by
  induction a generalizing st with
  | nil => rfl
  | cons s rest ih => rw [List.cons_append, cstmts, cstmts, ih]

/-- The empty pool satisfies the de-duplication invariant. -/
theorem nodupPool_nil : NodupPool [] := by
  intro k
  simp [List.countP_nil]

/-- C9: after compiling any program, the constant pool holds at most one
entry equal (under the runtime equality used by the compiler's search) to
any given value, because emit_lit and emit_const search the pool before
appending; and compiling further statements only appends to the pool, so
the indices of existing entries never change. -/
theorem C9_constant_pool :
    (∀ (stmts : List Stmt) (k : Value),
        (compileStmts stmts).2.countP (fun c => vbeq c k) ≤ 1) ∧
    (∀ (stmts1 stmts2 : List Stmt),
        ∃ δ, (compileStmts (stmts1 ++ stmts2)).2 = (compileStmts stmts1).2 ++ δ) := by
  constructor
  · intro stmts k
    have h := cstmts_pool stmts ⟨[⟨[], []⟩], []⟩
    exact h.2 nodupPool_nil k
  · intro stmts1 stmts2
    have h := cstmts_pool stmts2 (cstmts stmts1 ⟨[⟨[], []⟩], []⟩)
    obtain ⟨⟨δ, hδ⟩, _⟩ := h
    refine ⟨δ, ?_⟩
    show (cstmts (stmts1 ++ stmts2) ⟨[⟨[], []⟩], []⟩).constants = _
    rw [cstmts_append]
    exact hδ

theorem lambdaScopeGo_opcodes : ∀ (args : List VarDecl) (i : ℕ) (acc : Scope),
    ∃ δ, (lambdaScopeGo args i acc).opcodes = acc.opcodes ++ δ
  | [], _, acc => ⟨[], by simp [lambdaScopeGo]⟩
  | a :: rest, i, acc => by
      rw [lambdaScopeGo]
      obtain ⟨δ, hδ⟩ := lambdaScopeGo_opcodes rest (i + 1) ⟨acc.opcodes ++ [.save i], (a.name, i) :: acc.locals⟩
      exact ⟨[OpCode.save i] ++ δ, by rw [hδ]; simp⟩

/-- C10: rebinding a name that is already in the current scope's locals map
emits Save with the fresh index locals.len() + 1 while the map keeps the
original slot k, so a subsequent variable reference compiles to Load k (the
original slot, distinct from the one just written); at run time a Save to
slot j followed by a Load of slot i with i different from j reads the local
array entry the Save did not touch.  A first binding in a scope with an
empty locals map receives slot 1, not slot 0; slot 0 is only ever emitted
by the leading parameter Saves of a lambda scope, whose first opcode is
Save 0. -/
theorem C10_emit_save_shadowing :
    (∀ (name : Symbol) (k : ℕ) (st : CompState),
      localsGet (topScope st).locals name = some k →
        (emitSave ⟨name⟩ st).1 = (topScope st).locals.length + 1 ∧
        topOps (emitSave ⟨name⟩ st).2
          = topOps st ++ [.save ((topScope st).locals.length + 1)] ∧
        (topScope (emitSave ⟨name⟩ st).2).locals = (topScope st).locals ∧
        cexpr (.varE name) (emitSave ⟨name⟩ st).2
          = emitOp (.load k) (emitSave ⟨name⟩ st).2 ∧
        (k ≤ (topScope st).locals.length → k ≠ (topScope st).locals.length + 1)) ∧
    (∀ (name : Symbol) (st : CompState),
      (topScope st).locals = [] →
        (emitSave ⟨name⟩ st).1 = 1 ∧
        topOps (emitSave ⟨name⟩ st).2 = topOps st ++ [.save 1] ∧
        localsGet (topScope (emitSave ⟨name⟩ st).2).locals name = some 1) ∧
    (∀ (a : VarDecl) (rest : List VarDecl),
        (lambdaScope (a :: rest)).opcodes.head? = some (.save 0)) ∧
    (∀ (natSem : NatSem) (f g fl : ℕ) (s : VMState) (j i : ℕ) (v : Value)
        (rest : List Value),
      s.stack = v :: rest → i ≠ j → fl ≤ s.usedLocals →
        runOp natSem (g + 1) (.load i) (fl + 1) ((runOp natSem (f + 1) (.save j) fl s).1.1)
          = ((spush ((runOp natSem (f + 1) (.save j) fl s).1.1)
                (s.locals ((i + s.usedLocals) - fl)), fl + 1), .ok)) := by
  refine ⟨?_, ?_, ?_, ?_⟩
  · intro name k st hk
    have hloc : localsOrInsert (topScope st).locals name ((topScope st).locals.length + 1)
        = (topScope st).locals := by
      rw [localsOrInsert, hk]
    refine ⟨rfl, ?_, ?_, ?_, ?_⟩
    · show topOps (emitOp (.save ((topScope st).locals.length + 1)) _) = _
      rw [topOps_emitOp]
      congr 1
    · show (topScope (emitOp _ (setTop _ st))).locals = _
      rw [emitOp, topScope_setTop, topScope_setTop]
      simpa using hloc
    · rw [cexpr_varE]
      have : localsGet (topScope (emitSave ⟨name⟩ st).2).locals name = some k := by
        show localsGet (topScope (emitOp _ (setTop _ st))).locals name = some k
        rw [emitOp, topScope_setTop, topScope_setTop]
        simpa [hloc] using hk
      rw [this]
    · omega
  · intro name st hempty
    refine ⟨?_, ?_, ?_⟩
    · rw [emitSave, hempty]
      rfl
    · show topOps (emitOp (.save ((topScope st).locals.length + 1)) _) = _
      rw [topOps_emitOp, hempty]
      congr 1
    · show localsGet (topScope (emitOp _ (setTop _ st))).locals name = _
      rw [emitOp, topScope_setTop, topScope_setTop]
      simp only [hempty, localsOrInsert, localsGet, List.find?_nil, Option.map_none', List.nil_append]
      simp [localsGet, List.find?_cons]
  · intro a rest
    rw [lambdaScope, lambdaScopeGo]
    obtain ⟨δ, hδ⟩ := lambdaScopeGo_opcodes rest 1 ⟨[] ++ [.save 0], (a.name, 0) :: []⟩
    rw [hδ]
    simp
  · intro natSem f g fl s j i v rest hstack hij hfl
    have hsave : (runOp natSem (f + 1) (.save j) fl s).1.1
        = { s with
              stack := rest,
              usedLocals := s.usedLocals + 1,
              locals := updateLoc s.locals (j + ((s.usedLocals + 1) - (fl + 1))) v } := by
      rw [runOp]
      simp only [spop, hstack]
    rw [hsave]
    rw [runOp]
    simp only []
    have haddr : (i + (s.usedLocals + 1)) - (fl + 1) ≠ j + ((s.usedLocals + 1) - (fl + 1)) := by
      omega
    rw [show updateLoc s.locals (j + ((s.usedLocals + 1) - (fl + 1))) v
          ((i + (s.usedLocals + 1)) - (fl + 1))
        = s.locals ((i + (s.usedLocals + 1)) - (fl + 1)) from by
      rw [updateLoc, if_neg haddr]]
    have : (i + (s.usedLocals + 1)) - (fl + 1) = (i + s.usedLocals) - fl := by omega
    rw [this]

/-- Witness for C10_emit_save_shadowing at concrete inputs. -/
theorem C10_emit_save_witness :
    (localsGet (topScope ⟨[⟨[], [("x", 1)]⟩], []⟩).locals "x" = some 1) ∧
    (emitSave ⟨"x"⟩ ⟨[⟨[], [("x", 1)]⟩], []⟩).1 = 2 ∧
    topOps (emitSave ⟨"x"⟩ ⟨[⟨[], [("x", 1)]⟩], []⟩).2 = [.save 2] ∧
    cexpr (.varE "x") (emitSave ⟨"x"⟩ ⟨[⟨[], [("x", 1)]⟩], []⟩).2
      = emitOp (.load 1) (emitSave ⟨"x"⟩ ⟨[⟨[], [("x", 1)]⟩], []⟩).2 ∧
    (emitSave ⟨"y"⟩ ⟨[⟨[], []⟩], []⟩).1 = 1 ∧
    (lambdaScope [⟨"a"⟩, ⟨"b"⟩]).opcodes.head? = some (.save 0) ∧
    runOp natSem0 1 (.load 1) 1
        ((runOp natSem0 1 (.save 2) 0 { freshVM [] with stack := [.bool true] }).1.1)
      = ((spush ((runOp natSem0 1 (.save 2) 0 { freshVM [] with stack := [.bool true] }).1.1)
            ((freshVM []).locals 1), 1), .ok) := by
  have h1 := C10_emit_save_shadowing.1 "x" 1 ⟨[⟨[], [("x", 1)]⟩], []⟩ rfl
  have h2 := C10_emit_save_shadowing.2.1 "y" ⟨[⟨[], []⟩], []⟩ rfl
  have h3 := C10_emit_save_shadowing.2.2.1 ⟨"a"⟩ [⟨"b"⟩]
  have h4 := C10_emit_save_shadowing.2.2.2 natSem0 0 0 0
    { freshVM [] with stack := [.bool true] } 2 1 (.bool true) [] rfl (by decide) (by decide)
  exact ⟨rfl, h1.1, h1.2.1, h1.2.2.2.1, h2.1, h3, h4⟩

theorem compileExpr_def (e : Expr) :
    compileExpr e = ((topScope (cexpr e ⟨[⟨[], []⟩], []⟩)).opcodes,
      (cexpr e ⟨[⟨[], []⟩], []⟩).constants) := rfl

theorem topOps_constUpdate (st : CompState) (cs : List Value) :
    topOps { st with constants := cs } = topOps st := rfl

theorem cexpr_lit (l : Literal) (st : CompState) : cexpr (.lit l) st = emitLit l st := rfl

/-- Shape of the compiled short-circuit or over two literals: left operand
push, Dup, Not, a Jmf patched to the end, right operand push; the pool
entries at the two push indices are the literal values. -/
theorem compile_or_lit (l r : Literal) :
    ∃ il ir cs,
      compileExpr (.binary (.lit l) .or (.lit r))
        = ([.push il, .dup, .notOp, .jmf 5, .push ir], cs) ∧
      cs[il]? = some (litToValue l) ∧ cs[ir]? = some (litToValue r) := by
  obtain ⟨il, c1, h1, hl1, δ1, hδ1⟩ := emitLit_spec l (⟨[⟨[], []⟩], []⟩ : CompState)
  set st1 := emitLit l (⟨[⟨[], []⟩], []⟩ : CompState) with hst1
  set st4 := emitOp (.jmf 0) (emitOp .notOp (emitOp .dup st1)) with hst4
  obtain ⟨ir, c2, h2, hl2, δ2, hδ2⟩ := emitLit_spec r st4
  have hc4 : st4.constants = c1 := by
    rw [hst4]
    simp only [consts_emitOp, h1]
  refine ⟨il, ir, c2, ?_, ?_, hl2⟩
  · rw [compileExpr_def]
    have harm : cexpr (.binary (.lit l) .or (.lit r)) (⟨[⟨[], []⟩], []⟩ : CompState)
        = patchOp (curLen (emitOp .notOp (emitOp .dup st1)))
            (.jmf (curLen (cexpr (.lit r) st4)))
            (cexpr (.lit r) st4) := by
      rw [cexpr_binary, if_neg (by simp), if_pos rfl]
      rfl
    rw [harm]
    have hr : cexpr (.lit r) st4 = emitOp (.push ir) { st4 with constants := c2 } := by
      rw [cexpr_lit]; exact h2
    have hops1 : topOps st1 = [.push il] := by
      rw [h1, topOps_emitOp]
      rfl
    have hops4 : topOps st4 = [.push il, .dup, .notOp, .jmf 0] := by
      rw [hst4, topOps_emitOp, topOps_emitOp, topOps_emitOp, hops1]
      rfl
    have hops5 : topOps (cexpr (.lit r) st4) = [.push il, .dup, .notOp, .jmf 0, .push ir] := by
      rw [hr, topOps_emitOp, topOps_constUpdate, hops4]
      rfl
    have hlen3 : curLen (emitOp .notOp (emitOp .dup st1)) = 3 := by
      rw [curLen_eq, topOps_emitOp, topOps_emitOp, hops1]
      rfl
    have hlen5 : curLen (cexpr (.lit r) st4) = 5 := by
      rw [curLen_eq, hops5]
      rfl
    rw [Prod.mk.injEq]
    constructor
    · show topOps (patchOp _ _ _) = _
      rw [topOps_patchOp, hlen3, hlen5, hops5]
      rfl
    · show (patchOp _ _ _).constants = c2
      rw [consts_patchOp, hr, consts_emitOp]
  · have hil : il < c1.length := by
      by_contra hge
      rw [List.getElem?_eq_none (by omega)] at hl1
      exact Option.noConfusion hl1
    rw [hδ2, hc4, List.getElem?_append, if_pos hil]
    exact hl1

/-- Shape of the compiled short-circuit and over two literals. -/
theorem compile_and_lit (l r : Literal) :
    ∃ il ir cs,
      compileExpr (.binary (.lit l) .and (.lit r))
        = ([.push il, .dup, .jmf 5, .pop, .push ir], cs) ∧
      cs[il]? = some (litToValue l) ∧ cs[ir]? = some (litToValue r) := by
  obtain ⟨il, c1, h1, hl1, δ1, hδ1⟩ := emitLit_spec l (⟨[⟨[], []⟩], []⟩ : CompState)
  set st1 := emitLit l (⟨[⟨[], []⟩], []⟩ : CompState) with hst1
  set st4 := emitOp .pop (emitOp (.jmf 0) (emitOp .dup st1)) with hst4
  obtain ⟨ir, c2, h2, hl2, δ2, hδ2⟩ := emitLit_spec r st4
  have hc4 : st4.constants = c1 := by
    rw [hst4]
    simp only [consts_emitOp, h1]
  refine ⟨il, ir, c2, ?_, ?_, hl2⟩
  · rw [compileExpr_def]
    have harm : cexpr (.binary (.lit l) .and (.lit r)) (⟨[⟨[], []⟩], []⟩ : CompState)
        = patchOp (curLen (emitOp .dup st1))
            (.jmf (curLen (cexpr (.lit r) st4)))
            (cexpr (.lit r) st4) := by
      rw [cexpr_binary, if_pos rfl]
      rfl
    rw [harm]
    have hr : cexpr (.lit r) st4 = emitOp (.push ir) { st4 with constants := c2 } := by
      rw [cexpr_lit]; exact h2
    have hops1 : topOps st1 = [.push il] := by
      rw [h1, topOps_emitOp]
      rfl
    have hops4 : topOps st4 = [.push il, .dup, .jmf 0, .pop] := by
      rw [hst4, topOps_emitOp, topOps_emitOp, topOps_emitOp, hops1]
      rfl
    have hops5 : topOps (cexpr (.lit r) st4) = [.push il, .dup, .jmf 0, .pop, .push ir] := by
      rw [hr, topOps_emitOp, topOps_constUpdate, hops4]
      rfl
    have hlen2 : curLen (emitOp .dup st1) = 2 := by
      rw [curLen_eq, topOps_emitOp, hops1]
      rfl
    have hlen5 : curLen (cexpr (.lit r) st4) = 5 := by
      rw [curLen_eq, hops5]
      rfl
    rw [Prod.mk.injEq]
    constructor
    · show topOps (patchOp _ _ _) = _
      rw [topOps_patchOp, hlen2, hlen5, hops5]
      rfl
    · show (patchOp _ _ _).constants = c2
      rw [consts_patchOp, hr, consts_emitOp]
  · have hil : il < c1.length := by
      by_contra hge
      rw [List.getElem?_eq_none (by omega)] at hl1
      exact Option.noConfusion hl1
    rw [hδ2, hc4, List.getElem?_append, if_pos hil]
    exact hl1

theorem runLoop_step_ok (natSem : NatSem) (f : ℕ) (code : Bytecode) (ts : List ℕ)
    (ip fl : ℕ) (s : VMState) (op : OpCode) (s1 : VMState) (fl1 : ℕ)
    (hop : code[ip]? = some op) (hd : isDispatch op = true)
    (hrun : runOp natSem f op fl s = ((s1, fl1), .ok)) :
    runLoop natSem (f + 1) code ts ip fl s = runLoop natSem f code ts (ip + 1) fl1 s1 := by
  rw [runLoop_dispatch natSem f code ts ip fl s op hop hd, hrun]

theorem runLoop_jmf_fall (natSem : NatSem) (f : ℕ) (code : Bytecode) (ts : List ℕ)
    (ip fl : ℕ) (s : VMState) (t : ℕ) (v : Value) (s1 : VMState)
    (hop : code[ip]? = some (.jmf t)) (hpop : spop s = (v, s1))
    (hv : toBool v = true) :
    runLoop natSem (f + 1) code ts ip fl s
      = runLoop natSem f code ts (ip + 1) fl s1 := by
  obtain ⟨hlt, heq⟩ := getElem_of_getElem? hop
  rw [runLoop, dif_pos hlt, heq]
  simp only [hpop]
  rw [if_pos hv]

theorem runLoop_exit (natSem : NatSem) (f : ℕ) (code : Bytecode) (ts : List ℕ)
    (ip fl : ℕ) (s : VMState) (hip : ¬ ip < code.length) :
    runLoop natSem f code ts ip fl s
      = ({ s with usedLocals := s.usedLocals - fl }, .ok) := by
  rw [runLoop, dif_neg hip]

theorem getD_of_getElem? {l : List α} {i : ℕ} {a : α} (h : l[i]? = some a) (d : α) :
    l.getD i d = a := by
  simp [List.getD, h]

/-- Execution of the compiled or-sequence when the left value is falsy: the
Jmf consumes the negation and falls through, the retained left copy stays,
and the right value lands on top: the stack grows by two. -/
theorem run_orSeq (natSem : NatSem) (f il ir : ℕ) (cs : List Value) (lv rv : Value)
    (S : List Value) (loc : ℕ → Value) (u : ℕ) (g : List (Symbol × Value))
    (hl : cs[il]? = some lv) (hr : cs[ir]? = some rv) (hfalse : toBool lv = false) :
    vrun natSem (f + 7) [.push il, .dup, .notOp, .jmf 5, .push ir] ⟨S, loc, u, cs, g⟩
      = (⟨rv :: lv :: S, loc, u, cs, g⟩, .ok) := by
  have hstart : vrun natSem (f + 7) [.push il, .dup, .notOp, .jmf 5, .push ir] ⟨S, loc, u, cs, g⟩
      = runLoop natSem (f + 6) [.push il, .dup, .notOp, .jmf 5, .push ir] [] 0 0 ⟨S, loc, u, cs, g⟩ := rfl
  rw [hstart]
  have e0 : runOp natSem (f + 5) (.push il) 0 ⟨S, loc, u, cs, g⟩
      = ((⟨lv :: S, loc, u, cs, g⟩, 0), .ok) := by
    have h0 : runOp natSem (f + 5) (.push il) 0 ⟨S, loc, u, cs, g⟩
        = ((spush ⟨S, loc, u, cs, g⟩ (cs.getD il Value.nil), 0), .ok) := rfl
    rw [h0, getD_of_getElem? hl]
    rfl
  have s0 : runLoop natSem (f + 6) [.push il, .dup, .notOp, .jmf 5, .push ir] [] 0 0 ⟨S, loc, u, cs, g⟩
      = runLoop natSem (f + 5) [.push il, .dup, .notOp, .jmf 5, .push ir] [] 1 0 ⟨lv :: S, loc, u, cs, g⟩ :=
    runLoop_step_ok natSem (f + 5) _ [] 0 0 _ (.push il) _ 0 rfl rfl e0
  rw [s0]
  have s1 : runLoop natSem (f + 5) [.push il, .dup, .notOp, .jmf 5, .push ir] [] 1 0 ⟨lv :: S, loc, u, cs, g⟩
      = runLoop natSem (f + 4) [.push il, .dup, .notOp, .jmf 5, .push ir] [] 2 0 ⟨lv :: lv :: S, loc, u, cs, g⟩ :=
    runLoop_step_ok natSem (f + 4) _ [] 1 0 _ .dup _ 0 rfl rfl rfl
  rw [s1]
  have e2 : runOp natSem (f + 3) .notOp 0 ⟨lv :: lv :: S, loc, u, cs, g⟩
      = ((⟨.bool (!toBool lv) :: lv :: S, loc, u, cs, g⟩, 0), .ok) := rfl
  have s2 : runLoop natSem (f + 4) [.push il, .dup, .notOp, .jmf 5, .push ir] [] 2 0 ⟨lv :: lv :: S, loc, u, cs, g⟩
      = runLoop natSem (f + 3) [.push il, .dup, .notOp, .jmf 5, .push ir] [] 3 0 ⟨.bool (!toBool lv) :: lv :: S, loc, u, cs, g⟩ :=
    runLoop_step_ok natSem (f + 3) _ [] 2 0 _ .notOp _ 0 rfl rfl e2
  rw [s2, hfalse, Bool.not_false]
  have s3 : runLoop natSem (f + 3) [.push il, .dup, .notOp, .jmf 5, .push ir] [] 3 0 ⟨.bool true :: lv :: S, loc, u, cs, g⟩
      = runLoop natSem (f + 2) [.push il, .dup, .notOp, .jmf 5, .push ir] [] 4 0 ⟨lv :: S, loc, u, cs, g⟩ :=
    runLoop_jmf_fall natSem (f + 2) [.push il, .dup, .notOp, .jmf 5, .push ir] [] 3 0
      ⟨.bool true :: lv :: S, loc, u, cs, g⟩ 5 (.bool true) ⟨lv :: S, loc, u, cs, g⟩ rfl rfl rfl
  rw [s3]
  have e4 : runOp natSem (f + 1) (.push ir) 0 ⟨lv :: S, loc, u, cs, g⟩
      = ((⟨rv :: lv :: S, loc, u, cs, g⟩, 0), .ok) := by
    have h0 : runOp natSem (f + 1) (.push ir) 0 ⟨lv :: S, loc, u, cs, g⟩
        = ((spush ⟨lv :: S, loc, u, cs, g⟩ (cs.getD ir Value.nil), 0), .ok) := rfl
    rw [h0, getD_of_getElem? hr]
    rfl
  have s4 : runLoop natSem (f + 2) [.push il, .dup, .notOp, .jmf 5, .push ir] [] 4 0 ⟨lv :: S, loc, u, cs, g⟩
      = runLoop natSem (f + 1) [.push il, .dup, .notOp, .jmf 5, .push ir] [] 5 0 ⟨rv :: lv :: S, loc, u, cs, g⟩ :=
    runLoop_step_ok natSem (f + 1) _ [] 4 0 _ (.push ir) _ 0 rfl rfl e4
  rw [s4]
  rw [runLoop_exit natSem (f + 1) _ [] 5 0 _ (by simp)]
  rfl

/-- Execution of the compiled and-sequence when the left value is truthy:
the fall-through path pops the retained copy before evaluating the right
operand: the stack grows by exactly one. -/
theorem run_andSeq (natSem : NatSem) (f il ir : ℕ) (cs : List Value) (lv rv : Value)
    (S : List Value) (loc : ℕ → Value) (u : ℕ) (g : List (Symbol × Value))
    (hl : cs[il]? = some lv) (hr : cs[ir]? = some rv) (htrue : toBool lv = true) :
    vrun natSem (f + 7) [.push il, .dup, .jmf 5, .pop, .push ir] ⟨S, loc, u, cs, g⟩
      = (⟨rv :: S, loc, u, cs, g⟩, .ok) := by
  have hstart : vrun natSem (f + 7) [.push il, .dup, .jmf 5, .pop, .push ir] ⟨S, loc, u, cs, g⟩
      = runLoop natSem (f + 6) [.push il, .dup, .jmf 5, .pop, .push ir] [] 0 0 ⟨S, loc, u, cs, g⟩ := rfl
  rw [hstart]
  have e0 : runOp natSem (f + 5) (.push il) 0 ⟨S, loc, u, cs, g⟩
      = ((⟨lv :: S, loc, u, cs, g⟩, 0), .ok) := by
    have h0 : runOp natSem (f + 5) (.push il) 0 ⟨S, loc, u, cs, g⟩
        = ((spush ⟨S, loc, u, cs, g⟩ (cs.getD il Value.nil), 0), .ok) := rfl
    rw [h0, getD_of_getElem? hl]
    rfl
  have s0 : runLoop natSem (f + 6) [.push il, .dup, .jmf 5, .pop, .push ir] [] 0 0 ⟨S, loc, u, cs, g⟩
      = runLoop natSem (f + 5) [.push il, .dup, .jmf 5, .pop, .push ir] [] 1 0 ⟨lv :: S, loc, u, cs, g⟩ :=
    runLoop_step_ok natSem (f + 5) _ [] 0 0 _ (.push il) _ 0 rfl rfl e0
  rw [s0]
  have s1 : runLoop natSem (f + 5) [.push il, .dup, .jmf 5, .pop, .push ir] [] 1 0 ⟨lv :: S, loc, u, cs, g⟩
      = runLoop natSem (f + 4) [.push il, .dup, .jmf 5, .pop, .push ir] [] 2 0 ⟨lv :: lv :: S, loc, u, cs, g⟩ :=
    runLoop_step_ok natSem (f + 4) _ [] 1 0 _ .dup _ 0 rfl rfl rfl
  rw [s1]
  have s2 : runLoop natSem (f + 4) [.push il, .dup, .jmf 5, .pop, .push ir] [] 2 0 ⟨lv :: lv :: S, loc, u, cs, g⟩
      = runLoop natSem (f + 3) [.push il, .dup, .jmf 5, .pop, .push ir] [] 3 0 ⟨lv :: S, loc, u, cs, g⟩ :=
    runLoop_jmf_fall natSem (f + 3) [.push il, .dup, .jmf 5, .pop, .push ir] [] 2 0
      ⟨lv :: lv :: S, loc, u, cs, g⟩ 5 lv ⟨lv :: S, loc, u, cs, g⟩ rfl rfl htrue
  rw [s2]
  have s3 : runLoop natSem (f + 3) [.push il, .dup, .jmf 5, .pop, .push ir] [] 3 0 ⟨lv :: S, loc, u, cs, g⟩
      = runLoop natSem (f + 2) [.push il, .dup, .jmf 5, .pop, .push ir] [] 4 0 ⟨S, loc, u, cs, g⟩ :=
    runLoop_step_ok natSem (f + 2) _ [] 3 0 _ .pop _ 0 rfl rfl rfl
  rw [s3]
  have e4 : runOp natSem (f + 1) (.push ir) 0 ⟨S, loc, u, cs, g⟩
      = ((⟨rv :: S, loc, u, cs, g⟩, 0), .ok) := by
    have h0 : runOp natSem (f + 1) (.push ir) 0 ⟨S, loc, u, cs, g⟩
        = ((spush ⟨S, loc, u, cs, g⟩ (cs.getD ir Value.nil), 0), .ok) := rfl
    rw [h0, getD_of_getElem? hr]
    rfl
  have s4 : runLoop natSem (f + 2) [.push il, .dup, .jmf 5, .pop, .push ir] [] 4 0 ⟨S, loc, u, cs, g⟩
      = runLoop natSem (f + 1) [.push il, .dup, .jmf 5, .pop, .push ir] [] 5 0 ⟨rv :: S, loc, u, cs, g⟩ :=
    runLoop_step_ok natSem (f + 1) _ [] 4 0 _ (.push ir) _ 0 rfl rfl e4
  rw [s4]
  rw [runLoop_exit natSem (f + 1) _ [] 5 0 _ (by simp)]
  rfl

/-- C5: compiling an or whose operands are literals yields (left; Dup; Not;
Jmf end; right); on a falsy left value the Jmf consumes only the negation
and falls through without popping the retained left copy, so the or leaves
two values on the operand stack (the falsy left beneath the right result),
a net growth of two; the compiled and, whose fall-through (truthy-left)
path starts with a Pop of the retained copy, grows the stack by exactly
one. -/
theorem C5_or_stack_growth (l r : Literal) (natSem : NatSem) (f : ℕ)
    (S : List Value) (loc : ℕ → Value) (u : ℕ) (g : List (Symbol × Value)) :
    (toBool (litToValue l) = false →
      vrun natSem (f + 7) (compileExpr (.binary (.lit l) .or (.lit r))).1
          ⟨S, loc, u, (compileExpr (.binary (.lit l) .or (.lit r))).2, g⟩
        = (⟨litToValue r :: litToValue l :: S, loc, u,
            (compileExpr (.binary (.lit l) .or (.lit r))).2, g⟩, .ok)) ∧
    (toBool (litToValue l) = true →
      vrun natSem (f + 7) (compileExpr (.binary (.lit l) .and (.lit r))).1
          ⟨S, loc, u, (compileExpr (.binary (.lit l) .and (.lit r))).2, g⟩
        = (⟨litToValue r :: S, loc, u,
            (compileExpr (.binary (.lit l) .and (.lit r))).2, g⟩, .ok)) := by
  constructor
  · intro hfalse
    obtain ⟨il, ir, cs, hcomp, hl, hr⟩ := compile_or_lit l r
    rw [hcomp]
    exact run_orSeq natSem f il ir cs _ _ S loc u g hl hr hfalse
  · intro htrue
    obtain ⟨il, ir, cs, hcomp, hl, hr⟩ := compile_and_lit l r
    rw [hcomp]
    exact run_andSeq natSem f il ir cs _ _ S loc u g hl hr htrue

/-- Witness for C5_or_stack_growth at concrete inputs: or over a falsy unit
literal grows the stack by two; and over a truthy boolean grows it by
one. -/
theorem C5_or_stack_witness :
    (toBool (litToValue .unit) = false ∧
      vrun natSem0 7 (compileExpr (.binary (.lit .unit) .or (.lit (.bool true)))).1
          ⟨[], (freshVM []).locals, 0,
            (compileExpr (.binary (.lit .unit) .or (.lit (.bool true)))).2, []⟩
        = (⟨[.bool true, .nil], (freshVM []).locals, 0,
            (compileExpr (.binary (.lit .unit) .or (.lit (.bool true)))).2, []⟩, .ok)) ∧
    (toBool (litToValue (.bool true)) = true ∧
      vrun natSem0 7 (compileExpr (.binary (.lit (.bool true)) .and (.lit .unit))).1
          ⟨[], (freshVM []).locals, 0,
            (compileExpr (.binary (.lit (.bool true)) .and (.lit .unit))).2, []⟩
        = (⟨[.nil], (freshVM []).locals, 0,
            (compileExpr (.binary (.lit (.bool true)) .and (.lit .unit))).2, []⟩, .ok)) := by
  constructor
  · exact ⟨rfl, (C5_or_stack_growth .unit (.bool true) natSem0 0 [] (freshVM []).locals 0 []).1 rfl⟩
  · exact ⟨rfl, (C5_or_stack_growth (.bool true) .unit natSem0 0 [] (freshVM []).locals 0 []).2 rfl⟩

/-- Locals array after a sequence of writes at consecutive slots starting at
base b (the effect of the leading Save run of a callee frame). -/
def updLocs : (ℕ → Value) → ℕ → List Value → (ℕ → Value)
  | loc, _, [] => loc
  | loc, b, v :: vs => updLocs (updateLoc loc b v) (b + 1) vs

theorem updLocs_lt : ∀ (vs : List Value) (loc : ℕ → Value) (b x : ℕ), x < b →
    updLocs loc b vs x = loc x
  | [], _, _, _, _ => rfl
  | v :: vs, loc, b, x, h => by
      show updLocs (updateLoc loc b v) (b + 1) vs x = loc x
      rw [updLocs_lt vs _ (b + 1) x (by omega)]
      simp only [updateLoc]
      rw [if_neg (by omega)]

theorem updLocs_get : ∀ (vs : List Value) (loc : ℕ → Value) (b i : ℕ) (h : i < vs.length),
    updLocs loc b vs (b + i) = vs.get ⟨i, h⟩
  | v :: vs, loc, b, 0, _ => by
      show updLocs (updateLoc loc b v) (b + 1) vs (b + 0) = v
      rw [updLocs_lt vs _ (b + 1) (b + 0) (by omega)]
      simp [updateLoc]
  | v :: vs, loc, b, i + 1, h => by
      show updLocs (updateLoc loc b v) (b + 1) vs (b + (i + 1))
          = vs.get ⟨i, by simpa using Nat.lt_of_succ_lt_succ (by simpa using h)⟩
      have hb : b + (i + 1) = (b + 1) + i := by omega
      rw [hb, updLocs_get vs _ (b + 1) i (by simpa using Nat.lt_of_succ_lt_succ (by simpa using h))]

theorem saveSeq_getElem (n j : ℕ) (rest : Bytecode) (hj : j < n) :
    ((List.range n).map OpCode.save ++ rest)[j]? = some (.save j) := by
  have hli : j < ((List.range n).map OpCode.save).length := by simp [hj]
  rw [List.getElem?_append, if_pos hli]
  simp [List.getElem?_map, List.getElem?_range, hj]

/-- Running the leading Save sequence of a callee frame: starting at the j-th
save with frame-locals counter j, used-locals b + j, and the pending argument
values vs on top of the stack, the saves consume vs and write them at the
consecutive slots b + j, b + j + 1, ... (one fuel per instruction). -/
theorem savesRun : ∀ (vs : List Value) (natSem : NatSem) (fuel n : ℕ) (rest : Bytecode)
    (ts : List ℕ) (j : ℕ) (S : List Value) (loc : ℕ → Value) (b : ℕ)
    (cs : List Value) (g : List (Symbol × Value)),
    j + vs.length = n → vs.length < fuel →
    runLoop natSem fuel ((List.range n).map OpCode.save ++ rest) ts j j
        ⟨vs ++ S, loc, b + j, cs, g⟩
      = runLoop natSem (fuel - vs.length) ((List.range n).map OpCode.save ++ rest) ts n n
          ⟨S, updLocs loc (b + j) vs, b + n, cs, g⟩
  | [], natSem, fuel, n, rest, ts, j, S, loc, b, cs, g, hn, _ => by
      have hjn : j = n := by simpa using hn
      subst hjn
      simp [updLocs]
  | v :: vs', natSem, fuel, n, rest, ts, j, S, loc, b, cs, g, hn, hf => by
      have hj : j < n := by simp at hn; omega
      obtain ⟨F', rfl⟩ : ∃ F', fuel = F' + 2 := ⟨fuel - 2, by simp at hf; omega⟩
      have esave : runOp natSem (F' + 1) (.save j) j ⟨(v :: vs') ++ S, loc, b + j, cs, g⟩
          = ((⟨vs' ++ S, updateLoc loc (b + j) v, b + j + 1, cs, g⟩, j + 1), .ok) := by
        have h0 : runOp natSem (F' + 1) (.save j) j ⟨(v :: vs') ++ S, loc, b + j, cs, g⟩
            = ((⟨vs' ++ S, updateLoc loc (j + ((b + j + 1) - (j + 1))) v, b + j + 1, cs, g⟩,
                j + 1), .ok) := rfl
        have hidx : j + ((b + j + 1) - (j + 1)) = b + j := by omega
        rw [hidx] at h0
        exact h0
      have hstep2 : runLoop natSem (F' + 2) ((List.range n).map OpCode.save ++ rest) ts j j
            ⟨(v :: vs') ++ S, loc, b + j, cs, g⟩
          = runLoop natSem (F' + 1) ((List.range n).map OpCode.save ++ rest) ts (j + 1) (j + 1)
            ⟨vs' ++ S, updateLoc loc (b + j) v, b + j + 1, cs, g⟩ :=
        runLoop_step_ok natSem (F' + 1) ((List.range n).map OpCode.save ++ rest) ts j j
          ⟨(v :: vs') ++ S, loc, b + j, cs, g⟩ (.save j) _ (j + 1)
          (saveSeq_getElem n j rest hj) rfl esave
      rw [hstep2]
      have hIH2 : runLoop natSem (F' + 1) ((List.range n).map OpCode.save ++ rest) ts
            (j + 1) (j + 1) ⟨vs' ++ S, updateLoc loc (b + j) v, b + j + 1, cs, g⟩
          = runLoop natSem ((F' + 1) - vs'.length) ((List.range n).map OpCode.save ++ rest) ts
            n n ⟨S, updLocs loc (b + j) (v :: vs'), b + n, cs, g⟩ :=
        savesRun vs' natSem (F' + 1) n rest ts (j + 1) S (updateLoc loc (b + j) v) b cs g
          (by simp at hn ⊢; omega) (by simp at hf; omega)
      rw [hIH2]
      have hfuel : (F' + 1) - vs'.length = (F' + 2) - (v :: vs').length := by
        simp only [List.length_cons]; omega
      rw [hfuel]

/-- Compiling a list of literal arguments through compile_items (the
reversed-iteration argument walk of the App arm) appends one Push per
argument, in reverse surface order: the k-th emitted push resolves to the
(n - 1 - k)-th surface argument, so the first surface argument is pushed
last and sits on top of the stack at the call. -/
theorem crevList_lits : ∀ (ls : List Literal) (st : CompState),
    ∃ idxs : List ℕ,
      topOps (crevList (ls.map .lit) st) = topOps st ++ idxs.map OpCode.push ∧
      idxs.length = ls.length ∧
      ∀ k i, idxs[k]? = some i →
        ∃ l, ls[ls.length - 1 - k]? = some l ∧
          (crevList (ls.map .lit) st).constants[i]? = some (litToValue l)
  | [], st => ⟨[], by simp [crevList_nil], rfl, fun k i h => by simp at h⟩
  | l :: ls', st => by
      obtain ⟨idxs', h1, h2, h3⟩ := crevList_lits ls' st
      obtain ⟨idx, cs, hemit, hlook, δ, hδ⟩ := emitLit_spec l (crevList (ls'.map .lit) st)
      have hcons : crevList ((l :: ls').map .lit) st
          = emitLit l (crevList (ls'.map .lit) st) := rfl
      refine ⟨idxs' ++ [idx], ?_, ?_, ?_⟩
      · rw [hcons, hemit, topOps_emitOp, topOps_constUpdate, h1]
        simp
      · simp [h2]
      · intro k i hk
        rcases Nat.lt_or_ge k idxs'.length with hlt | hge
        · rw [List.getElem?_append, if_pos hlt] at hk
          obtain ⟨l0, hl0, hc0⟩ := h3 k i hk
          refine ⟨l0, ?_, ?_⟩
          · have hkl : k < ls'.length := by omega
            have hidx2 : (l :: ls').length - 1 - k = (ls'.length - 1 - k) + 1 := by
              simp only [List.length_cons]; omega
            rw [hidx2, List.getElem?_cons_succ]
            exact hl0
          · rw [hcons, hemit, consts_emitOp]
            have hlt2 : i < (crevList (ls'.map .lit) st).constants.length := by
              by_contra hn2
              rw [List.getElem?_eq_none (by omega)] at hc0
              exact Option.noConfusion hc0
            rw [hδ, List.getElem?_append, if_pos hlt2]
            exact hc0
        · rw [List.getElem?_append, if_neg (by omega)] at hk
          have hk0 : k - idxs'.length = 0 := by
            by_contra hne
            obtain ⟨m, hm⟩ : ∃ m, k - idxs'.length = m + 1 :=
              ⟨k - idxs'.length - 1, by omega⟩
            rw [hm] at hk
            simp at hk
          rw [hk0] at hk
          simp only [List.getElem?_cons_zero, Option.some.injEq] at hk
          refine ⟨l, ?_, ?_⟩
          · have : (l :: ls').length - 1 - k = 0 := by
              simp only [List.length_cons]; omega
            rw [this]
            simp
          · rw [hcons, hemit, consts_emitOp, ← hk]
            exact hlook

theorem lambdaScopeGo_opcodes_exact : ∀ (args : List VarDecl) (i : ℕ) (acc : Scope),
    (lambdaScopeGo args i acc).opcodes
      = acc.opcodes ++ (List.range args.length).map (fun j => OpCode.save (i + j))
  | [], i, acc => by simp [lambdaScopeGo]
  | a :: rest, i, acc => by
      rw [lambdaScopeGo, lambdaScopeGo_opcodes_exact rest (i + 1)]
      have hmap : (List.range (a :: rest).length).map (fun j => OpCode.save (i + j))
          = OpCode.save i :: (List.range rest.length).map (fun j => OpCode.save (i + 1 + j)) := by
        simp only [List.length_cons, List.range_succ_eq_map, List.map_cons, List.map_map,
          Nat.add_zero]
        congr 1
        apply List.map_congr_left
        intro j _
        simp only [Function.comp_apply]
        congr 1
        omega
      rw [hmap]
      simp

/-- The scope pushed for a lambda of n parameters opens with exactly
Save 0, Save 1, ..., Save (n - 1): one leading Save per parameter, in
parameter order. -/
theorem lambdaScope_saves (params : List VarDecl) :
    (lambdaScope params).opcodes = (List.range params.length).map OpCode.save := by
  rw [lambdaScope, lambdaScopeGo_opcodes_exact]
  simp

/-- Call dispatch on an exact-arity bytecode function with no bound
arguments: the fast path passes the operand stack through unchanged and
enters the body. -/
theorem vcall_exact_arity (natSem : NatSem) (F n : ℕ) (body : Bytecode)
    (S : List Value) (loc : ℕ → Value) (U : ℕ) (cs : List Value)
    (g : List (Symbol × Value)) :
    vcall natSem (F + 1) n ⟨.fn ⟨n, [], .bytecode body⟩ :: S, loc, U, cs, g⟩
      = callBytecode natSem F body [] ⟨S, loc, U, cs, g⟩ := by
  simp [vcall, callArgs, isBytecodeFn, spop]

/-- C6: the App arm compiles the arguments through a reversed walk and then
the callee, closing with Call(n) (TCall(n) when marked tail), so the first
surface argument's push is emitted last and its value is on top of the
operand stack at the call; a lambda of n parameters opens with
Save 0 ... Save (n-1), one per parameter in order; and when Call(n) reaches
a bytecode function of declared arity n with no bound arguments, the fast
path hands the operand stack to the body unchanged, whose leading Save run
consumes the arguments top-down and stores the i-th surface argument in the
i-th parameter's local slot (base + i of the fresh frame). -/
theorem C6_call_convention (callee : Expr) (ls : List Literal) (tl : Bool)
    (st : CompState) (natSem : NatSem) (F : ℕ) (vs S : List Value)
    (rest : Bytecode) (loc : ℕ → Value) (U : ℕ) (cs : List Value)
    (g : List (Symbol × Value)) (hF : vs.length < F) :
    (topOps (cexpr (.app callee (ls.map .lit) tl) st)
        = topOps (cexpr callee (crevList (ls.map .lit) st))
          ++ [if tl then OpCode.tcall ls.length else OpCode.call ls.length]) ∧
    (∃ idxs : List ℕ,
        topOps (crevList (ls.map .lit) st) = topOps st ++ idxs.map OpCode.push ∧
        idxs.length = ls.length ∧
        ∀ k i, idxs[k]? = some i →
          ∃ l, ls[ls.length - 1 - k]? = some l ∧
            (crevList (ls.map .lit) st).constants[i]? = some (litToValue l)) ∧
    (∀ params : List VarDecl,
        (lambdaScope params).opcodes = (List.range params.length).map OpCode.save) ∧
    (vcall natSem (F + 1) vs.length
        ⟨.fn ⟨vs.length, [], .bytecode ((List.range vs.length).map OpCode.save ++ rest)⟩
            :: (vs ++ S), loc, U, cs, g⟩
      = callBytecode natSem F ((List.range vs.length).map OpCode.save ++ rest) []
          ⟨vs ++ S, loc, U, cs, g⟩) ∧
    (vrun natSem (F + 1) ((List.range vs.length).map OpCode.save ++ rest)
        ⟨vs ++ S, loc, U + 1, cs, g⟩
      = runLoop natSem (F - vs.length) ((List.range vs.length).map OpCode.save ++ rest) []
          vs.length vs.length ⟨S, updLocs loc (U + 1) vs, U + 1 + vs.length, cs, g⟩) ∧
    (∀ i (hi : i < vs.length), updLocs loc (U + 1) vs (U + 1 + i) = vs.get ⟨i, hi⟩) := by
  refine ⟨?_, crevList_lits ls st, lambdaScope_saves,
    vcall_exact_arity natSem F vs.length _ (vs ++ S) loc U cs g, ?_, ?_⟩
  · rw [cexpr_app]
    cases tl <;> simp [topOps_emitOp]
  · have h0 : vrun natSem (F + 1) ((List.range vs.length).map OpCode.save ++ rest)
        ⟨vs ++ S, loc, U + 1, cs, g⟩
      = runLoop natSem F ((List.range vs.length).map OpCode.save ++ rest) [] 0 0
        ⟨vs ++ S, loc, U + 1, cs, g⟩ := rfl
    rw [h0]
    exact savesRun vs natSem F vs.length rest [] 0 S loc (U + 1) cs g (by omega) hF
  · intro i hi
    exact updLocs_get vs loc (U + 1) i hi

/-- Witness for C6_call_convention at a two-argument call: two literal
arguments, a two-value stack, a bytecode callee of arity two made of its two
leading saves, and fuel 3. -/
theorem C6_call_convention_witness :
    ([Value.bool true, Value.nil].length < 3) ∧
    ((topOps (cexpr (.app (.varE "f") ([Literal.unit, Literal.bool true].map .lit) false)
          ⟨[⟨[], []⟩], []⟩)
        = topOps (cexpr (.varE "f")
            (crevList ([Literal.unit, Literal.bool true].map .lit) ⟨[⟨[], []⟩], []⟩))
          ++ [if false then OpCode.tcall [Literal.unit, Literal.bool true].length
              else OpCode.call [Literal.unit, Literal.bool true].length]) ∧
    (∃ idxs : List ℕ,
        topOps (crevList ([Literal.unit, Literal.bool true].map .lit) ⟨[⟨[], []⟩], []⟩)
          = topOps (⟨[⟨[], []⟩], []⟩ : CompState) ++ idxs.map OpCode.push ∧
        idxs.length = [Literal.unit, Literal.bool true].length ∧
        ∀ k i, idxs[k]? = some i →
          ∃ l, [Literal.unit, Literal.bool true][[Literal.unit, Literal.bool true].length - 1 - k]?
              = some l ∧
            (crevList ([Literal.unit, Literal.bool true].map .lit)
                ⟨[⟨[], []⟩], []⟩).constants[i]? = some (litToValue l)) ∧
    (∀ params : List VarDecl,
        (lambdaScope params).opcodes = (List.range params.length).map OpCode.save) ∧
    (vcall natSem0 (3 + 1) [Value.bool true, Value.nil].length
        ⟨.fn ⟨[Value.bool true, Value.nil].length, [],
            .bytecode ((List.range [Value.bool true, Value.nil].length).map OpCode.save ++ [])⟩
            :: ([Value.bool true, Value.nil] ++ []), fun _ => Value.nil, 0, [], []⟩
      = callBytecode natSem0 3
          ((List.range [Value.bool true, Value.nil].length).map OpCode.save ++ []) []
          ⟨[Value.bool true, Value.nil] ++ [], fun _ => Value.nil, 0, [], []⟩) ∧
    (vrun natSem0 (3 + 1)
        ((List.range [Value.bool true, Value.nil].length).map OpCode.save ++ [])
        ⟨[Value.bool true, Value.nil] ++ [], fun _ => Value.nil, 0 + 1, [], []⟩
      = runLoop natSem0 (3 - [Value.bool true, Value.nil].length)
          ((List.range [Value.bool true, Value.nil].length).map OpCode.save ++ []) []
          [Value.bool true, Value.nil].length [Value.bool true, Value.nil].length
          ⟨[], updLocs (fun _ => Value.nil) (0 + 1) [Value.bool true, Value.nil],
            0 + 1 + [Value.bool true, Value.nil].length, [], []⟩) ∧
    (∀ i (hi : i < [Value.bool true, Value.nil].length),
        updLocs (fun _ => Value.nil) (0 + 1) [Value.bool true, Value.nil] (0 + 1 + i)
          = [Value.bool true, Value.nil].get ⟨i, hi⟩)) :=
  ⟨by decide,
    C6_call_convention (.varE "f") [Literal.unit, Literal.bool true] false ⟨[⟨[], []⟩], []⟩
      natSem0 3 [Value.bool true, Value.nil] [] [] (fun _ => Value.nil) 0 [] [] (by decide)⟩

theorem popN_append : ∀ (m : ℕ) (vs R : List Value) (loc : ℕ → Value) (U : ℕ)
    (cs : List Value) (g : List (Symbol × Value)), m ≤ vs.length →
    popN m ⟨vs ++ R, loc, U, cs, g⟩ = (vs.take m, ⟨vs.drop m ++ R, loc, U, cs, g⟩)
  | 0, vs, R, loc, U, cs, g, _ => by simp [popN]
  | m + 1, [], R, loc, U, cs, g, hm => by simp at hm
  | m + 1, v :: vs, R, loc, U, cs, g, hm => by
      show popN (m + 1) ⟨v :: (vs ++ R), loc, U, cs, g⟩
          = ((v :: vs).take (m + 1), ⟨(v :: vs).drop (m + 1) ++ R, loc, U, cs, g⟩)
      simp only [popN, spop]
      rw [popN_append m vs R loc U cs g (by simpa using hm)]
      simp

theorem pushAll_stack : ∀ (l : List Value) (s : VMState),
    pushAll l s = { s with stack := l.reverse ++ s.stack }
  | [], s => by simp [pushAll]
  | v :: l, s => by
      show pushAll l (spush s v) = _
      rw [pushAll_stack l (spush s v)]
      simp [spush]

theorem callBytecode_eq_of_pushAll (natSem : NatSem) (F : ℕ) (code : Bytecode)
    (a1 a2 : List Value) (s1 s2 : VMState)
    (h : pushAll a1 { s1 with usedLocals := s1.usedLocals + 1 }
       = pushAll a2 { s2 with usedLocals := s2.usedLocals + 1 }) :
    callBytecode natSem F code a1 s1 = callBytecode natSem F code a2 s2 := by
  rw [callBytecode.eq_def, callBytecode.eq_def, h]

theorem callArgs_slow_ne (m k : ℕ) (body : FnKind) (vs R : List Value)
    (loc : ℕ → Value) (U : ℕ) (cs : List Value) (g : List (Symbol × Value))
    (hne : k ≠ m) (hm : m ≤ vs.length) :
    callArgs m ⟨k, [], body⟩ ⟨vs ++ R, loc, U, cs, g⟩
      = ((vs.take m).reverse, ⟨vs.drop m ++ R, loc, U, cs, g⟩) := by
  have hbeq : (k == m) = false := by
    rw [beq_eq_false_iff_ne]
    exact hne
  unfold callArgs
  rw [if_neg (by simp [hbeq])]
  rw [popN_append m vs R loc U cs g hm]
  simp

theorem callArgs_bound (a ar : ℕ) (body : FnKind) (bound vs2 R : List Value)
    (loc : ℕ → Value) (U : ℕ) (cs : List Value) (g : List (Symbol × Value))
    (hb : bound.isEmpty = false) (hlen2 : vs2.length = a) :
    callArgs a ⟨ar, bound, body⟩ ⟨vs2 ++ R, loc, U, cs, g⟩
      = (vs2.reverse ++ bound, ⟨R, loc, U, cs, g⟩) := by
  unfold callArgs
  rw [if_neg (by simp [hb])]
  rw [popN_append a vs2 R loc U cs g (by omega)]
  subst hlen2
  simp

theorem callArgs_fast (k : ℕ) (code : Bytecode) (s : VMState) :
    callArgs k ⟨k, [], .bytecode code⟩ s = ([], s) := by
  unfold callArgs
  rw [if_pos (by simp [isBytecodeFn])]

theorem callArgs_native_full (k : ℕ) (id : ℕ) (vs R : List Value)
    (loc : ℕ → Value) (U : ℕ) (cs : List Value) (g : List (Symbol × Value))
    (hlen : vs.length = k) :
    callArgs k ⟨k, [], .native id⟩ ⟨vs ++ R, loc, U, cs, g⟩
      = (vs.reverse, ⟨R, loc, U, cs, g⟩) := by
  unfold callArgs
  rw [if_neg (by simp [isBytecodeFn])]
  rw [popN_append k vs R loc U cs g (by omega)]
  subst hlen
  simp

/-- C3: Call(m) on a function of declared arity k with m < k pushes a new
callable whose declared arity is k - m, whose body is unchanged, and whose
bound-argument vector is exactly the m popped values; and calling that
callable on the remaining k - m stacked arguments produces, for every host
interpretation and fuel, the same machine state and outcome (hence the same
final stack and global effects) as calling the original function on all k
arguments at once. -/
theorem C3_partial_application (natSem : NatSem) (F k m : ℕ) (body : FnKind)
    (vs R : List Value) (loc : ℕ → Value) (U : ℕ) (cs : List Value)
    (g : List (Symbol × Value)) (hm0 : 0 < m) (hmk : m < k) (hlen : vs.length = k) :
    (applyFn ⟨k, [], body⟩ ((vs.take m).reverse)
      = (⟨k - m, (vs.take m).reverse, body⟩ : Fn)) ∧
    (vcall natSem (F + 1) m ⟨.fn ⟨k, [], body⟩ :: (vs ++ R), loc, U, cs, g⟩
      = (⟨.fn (applyFn ⟨k, [], body⟩ ((vs.take m).reverse)) :: (vs.drop m ++ R),
          loc, U, cs, g⟩, .ok)) ∧
    (vcall natSem (F + 1) (k - m)
        ⟨.fn (applyFn ⟨k, [], body⟩ ((vs.take m).reverse)) :: (vs.drop m ++ R),
          loc, U, cs, g⟩
      = vcall natSem (F + 1) k ⟨.fn ⟨k, [], body⟩ :: (vs ++ R), loc, U, cs, g⟩) := by
  have htakelen : ((vs.take m).reverse).length = m := by
    simp [hlen]
    omega
  have hg : applyFn ⟨k, [], body⟩ ((vs.take m).reverse)
      = (⟨k - m, (vs.take m).reverse, body⟩ : Fn) := by
    unfold applyFn
    rw [htakelen]
    simp
  refine ⟨hg, ?_, ?_⟩
  · simp only [vcall, spop]
    simp only [callArgs_slow_ne m k body vs R loc U cs g (by omega) (by omega)]
    rw [if_neg (by omega), if_pos hmk]
    rfl
  · have hbne : ((vs.take m).reverse).isEmpty = false := by
      cases hc : (vs.take m).reverse with
      | nil => rw [hc] at htakelen; simp at htakelen; omega
      | cons a t => simp
    cases body with
    | bytecode code =>
        have hL : vcall natSem (F + 1) (k - m)
            ⟨.fn (applyFn ⟨k, [], .bytecode code⟩ ((vs.take m).reverse))
                :: (vs.drop m ++ R), loc, U, cs, g⟩
            = callBytecode natSem F code
                ((vs.drop m).reverse ++ (vs.take m).reverse) ⟨R, loc, U, cs, g⟩ := by
          rw [hg]
          simp only [vcall, spop]
          simp only [callArgs_bound (k - m) (k - m) (.bytecode code) ((vs.take m).reverse)
            (vs.drop m) R loc U cs g hbne (by simp [hlen])]
          rw [if_neg (by omega), if_neg (by omega)]
        have hR : vcall natSem (F + 1) k
            ⟨.fn ⟨k, [], .bytecode code⟩ :: (vs ++ R), loc, U, cs, g⟩
            = callBytecode natSem F code [] ⟨vs ++ R, loc, U, cs, g⟩ := by
          simp only [vcall, spop]
          simp only [callArgs_fast]
          rw [if_neg (by omega), if_neg (by omega)]
        rw [hL, hR]
        exact callBytecode_eq_of_pushAll natSem F code _ _ _ _ (by
          rw [pushAll_stack, pushAll_stack]
          simp [List.reverse_append, List.take_append_drop])
    | native id =>
        have hL : vcall natSem (F + 1) (k - m)
            ⟨.fn (applyFn ⟨k, [], .native id⟩ ((vs.take m).reverse))
                :: (vs.drop m ++ R), loc, U, cs, g⟩
            = callNative natSem id
                ((vs.drop m).reverse ++ (vs.take m).reverse) ⟨R, loc, U, cs, g⟩ := by
          rw [hg]
          simp only [vcall, spop]
          simp only [callArgs_bound (k - m) (k - m) (.native id) ((vs.take m).reverse)
            (vs.drop m) R loc U cs g hbne (by simp [hlen])]
          rw [if_neg (by omega), if_neg (by omega)]
        have hR : vcall natSem (F + 1) k
            ⟨.fn ⟨k, [], .native id⟩ :: (vs ++ R), loc, U, cs, g⟩
            = callNative natSem id vs.reverse ⟨R, loc, U, cs, g⟩ := by
          simp only [vcall, spop]
          simp only [callArgs_native_full k id vs R loc U cs g hlen]
          rw [if_neg (by omega), if_neg (by omega)]
        rw [hL, hR]
        have hargs : (vs.drop m).reverse ++ (vs.take m).reverse = vs.reverse := by
          rw [← List.reverse_append, List.take_append_drop]
        rw [hargs]

/-- Witness for C3_partial_application: arity 2, one supplied argument,
empty bytecode body. -/
theorem C3_partial_application_witness :
    ((0 : ℕ) < 1 ∧ 1 < 2 ∧ [Value.nil, Value.bool true].length = 2) ∧
    ((applyFn ⟨2, [], .bytecode []⟩ (([Value.nil, Value.bool true].take 1).reverse)
      = (⟨2 - 1, ([Value.nil, Value.bool true].take 1).reverse, .bytecode []⟩ : Fn)) ∧
    (vcall natSem0 (0 + 1) 1
        ⟨.fn ⟨2, [], .bytecode []⟩ :: ([Value.nil, Value.bool true] ++ []),
          fun _ => Value.nil, 0, [], []⟩
      = (⟨.fn (applyFn ⟨2, [], .bytecode []⟩ (([Value.nil, Value.bool true].take 1).reverse))
            :: ([Value.nil, Value.bool true].drop 1 ++ []), fun _ => Value.nil, 0, [], []⟩,
          .ok)) ∧
    (vcall natSem0 (0 + 1) (2 - 1)
        ⟨.fn (applyFn ⟨2, [], .bytecode []⟩ (([Value.nil, Value.bool true].take 1).reverse))
            :: ([Value.nil, Value.bool true].drop 1 ++ []), fun _ => Value.nil, 0, [], []⟩
      = vcall natSem0 (0 + 1) 2
          ⟨.fn ⟨2, [], .bytecode []⟩ :: ([Value.nil, Value.bool true] ++ []),
            fun _ => Value.nil, 0, [], []⟩)) :=
  ⟨⟨by decide, by decide, by decide⟩,
    C3_partial_application natSem0 0 2 1 (.bytecode []) [Value.nil, Value.bool true] []
      (fun _ => Value.nil) 0 [] [] (by decide) (by decide) (by decide)⟩

/-- The control-transfer target carried by an opcode: Jmp, Jmf and Try hold
an instruction index, every other opcode holds none. -/
def jmpTarget : OpCode → Option ℕ
  | .jmp t => some t
  | .jmf t => some t
  | .tryOp t => some t
  | _ => none

/-- Every control-transfer target inside the segment δ (sitting at absolute
offset off) is strictly forward of its own absolute position, except at the
absolute positions listed in hs (the still-unpatched placeholder holes). -/
def SegFwdX (off : ℕ) (δ : Bytecode) (hs : List ℕ) : Prop :=
  ∀ i op t, δ[i]? = some op → jmpTarget op = some t → off + i < t ∨ (off + i) ∈ hs

theorem segX_nil (off : ℕ) (hs : List ℕ) : SegFwdX off [] hs := by
  intro i op t h
  simp at h

theorem segX_append {off : ℕ} {δ1 δ2 : Bytecode} {hs : List ℕ}
    (h1 : SegFwdX off δ1 hs) (h2 : SegFwdX (off + δ1.length) δ2 hs) :
    SegFwdX off (δ1 ++ δ2) hs := by
  intro i op t hop ht
  rcases Nat.lt_or_ge i δ1.length with hlt | hge
  · rw [List.getElem?_append, if_pos hlt] at hop
    exact h1 i op t hop ht
  · rw [List.getElem?_append, if_neg (by omega)] at hop
    rcases h2 (i - δ1.length) op t hop ht with h | h
    · left; omega
    · right
      have he : off + δ1.length + (i - δ1.length) = off + i := by omega
      rw [he] at h
      exact h

theorem segX_single {off : ℕ} {op : OpCode} {hs : List ℕ}
    (h : ∀ t, jmpTarget op = some t → off < t ∨ off ∈ hs) :
    SegFwdX off [op] hs := by
  intro i op' t hop ht
  have hi : i = 0 := by
    by_contra hne
    obtain ⟨m, rfl⟩ : ∃ m, i = m + 1 := ⟨i - 1, by omega⟩
    simp at hop
  subst hi
  simp at hop
  subst hop
  simpa using h t ht

theorem segX_none {off : ℕ} {δ : Bytecode} {hs : List ℕ}
    (h : ∀ op ∈ δ, jmpTarget op = none) : SegFwdX off δ hs := by
  intro i op t hop ht
  rw [h op (List.getElem?_mem hop)] at ht
  exact Option.noConfusion ht

theorem segX_mono {off : ℕ} {δ : Bytecode} {hs hs' : List ℕ}
    (hsub : ∀ x ∈ hs, x ∈ hs') (h : SegFwdX off δ hs) : SegFwdX off δ hs' := by
  intro i op t hop ht
  rcases h i op t hop ht with h1 | h1
  · exact Or.inl h1
  · exact Or.inr (hsub _ h1)

theorem segX_dropLast {off : ℕ} {δ : Bytecode} {hs : List ℕ}
    (h : SegFwdX off δ hs) : SegFwdX off δ.dropLast hs := by
  intro i op t hop ht
  rw [List.dropLast_eq_take, List.getElem?_take] at hop
  rcases Nat.decLt i (δ.length - 1) with hlt | hlt
  · rw [if_neg hlt] at hop
    exact Option.noConfusion hop
  · rw [if_pos hlt] at hop
    exact h i op t hop ht

theorem set_append_add : ∀ (P δ : Bytecode) (j : ℕ) (op : OpCode),
    (P ++ δ).set (P.length + j) op = P ++ δ.set j op
  | [], δ, j, op => by simp
  | a :: P, δ, j, op => by
      have hl : (a :: P).length + j = (P.length + j) + 1 := by simp; omega
      rw [hl]
      show a :: (P ++ δ).set (P.length + j) op = a :: P ++ δ.set j op
      rw [set_append_add P δ j op]
      rfl

/-- The compiler states reached while lowering one construct: the innermost
scope's opcodes have only grown by a segment δ, the outer scopes are
untouched, every transfer in δ is forward except at the unpatched holes hs,
and every hole lies inside δ. -/
def EmitsX (st st' : CompState) (hs : List ℕ) : Prop :=
  ∃ δ, topOps st' = topOps st ++ δ ∧ st'.scopeStack.tail = st.scopeStack.tail ∧
    SegFwdX (topOps st).length δ hs ∧
    ∀ h ∈ hs, (topOps st).length ≤ h ∧ h < (topOps st).length + δ.length

theorem emitsX_refl (st : CompState) : EmitsX st st [] :=
  ⟨[], by simp, rfl, segX_nil _ _, by simp⟩

theorem emitsX_trans {st st1 st2 : CompState} {hs1 hs2 : List ℕ}
    (h1 : EmitsX st st1 hs1) (h2 : EmitsX st1 st2 hs2) :
    EmitsX st st2 (hs1 ++ hs2) := by
  obtain ⟨d1, ho1, ht1, hf1, hb1⟩ := h1
  obtain ⟨d2, ho2, ht2, hf2, hb2⟩ := h2
  refine ⟨d1 ++ d2, ?_, ?_, ?_, ?_⟩
  · rw [ho2, ho1, List.append_assoc]
  · rw [ht2, ht1]
  · refine segX_append (segX_mono (fun x hx => by simp [hx]) hf1) ?_
    have hoff : (topOps st1).length = (topOps st).length + d1.length := by
      rw [ho1, List.length_append]
    rw [← hoff]
    exact segX_mono (fun x hx => by simp [hx]) hf2
  · intro h hh
    rcases List.mem_append.mp hh with hh1 | hh2
    · have := hb1 h hh1
      constructor
      · omega
      · simp only [List.length_append]
        omega
    · have := hb2 h hh2
      have hoff : (topOps st1).length = (topOps st).length + d1.length := by
        rw [ho1, List.length_append]
      constructor
      · omega
      · simp only [List.length_append]
        omega

theorem emitsX_curLen {st st' : CompState} {hs : List ℕ} (h : EmitsX st st' hs) :
    ∃ d, curLen st' = curLen st + d := by
  obtain ⟨δ, ho, _, _, _⟩ := h
  exact ⟨δ.length, by rw [curLen_eq, curLen_eq, ho, List.length_append]⟩

theorem emitsX_hole_lt {st st' : CompState} {hs : List ℕ} (h : EmitsX st st' hs) :
    ∀ j ∈ hs, curLen st ≤ j ∧ j < curLen st' := by
  obtain ⟨δ, ho, _, _, hb⟩ := h
  intro j hj
  have := hb j hj
  rw [curLen_eq, curLen_eq, ho, List.length_append]
  omega

theorem emitsX_emitOp_none (op : OpCode) (st : CompState)
    (h : jmpTarget op = none) : EmitsX st (emitOp op st) [] := by
  refine ⟨[op], topOps_emitOp op st, tail_emitOp op st, ?_, by simp⟩
  refine segX_none ?_
  intro o ho
  simp at ho
  rw [ho, h]

theorem emitsX_emitOp_hole (op : OpCode) (st : CompState) :
    EmitsX st (emitOp op st) [curLen st] := by
  refine ⟨[op], topOps_emitOp op st, tail_emitOp op st, ?_, by simp [curLen_eq]⟩
  refine segX_single ?_
  intro t _
  right
  simp [curLen_eq]

theorem topOps_emitOps : ∀ (ops : List OpCode) (st : CompState),
    topOps (emitOps ops st) = topOps st ++ ops
  | [], st => by simp [emitOps]
  | o :: ops, st => by
      show topOps (emitOps ops (emitOp o st)) = _
      rw [topOps_emitOps ops (emitOp o st), topOps_emitOp]
      simp

theorem tail_emitOps : ∀ (ops : List OpCode) (st : CompState),
    (emitOps ops st).scopeStack.tail = st.scopeStack.tail
  | [], st => rfl
  | o :: ops, st => by
      show (emitOps ops (emitOp o st)).scopeStack.tail = _
      rw [tail_emitOps ops (emitOp o st), tail_emitOp]

theorem emitsX_emitOps (ops : List OpCode) (st : CompState)
    (h : ∀ op ∈ ops, jmpTarget op = none) : EmitsX st (emitOps ops st) [] :=
  ⟨ops, topOps_emitOps ops st, tail_emitOps ops st, segX_none h, by simp⟩

theorem emitsX_emitLit (l : Literal) (st : CompState) :
    EmitsX st (emitLit l st) [] := by
  obtain ⟨idx, cs, he, _, _⟩ := emitLit_spec l st
  refine ⟨[.push idx], ?_, ?_, segX_none (by intro o ho; simp at ho; rw [ho]; rfl), by simp⟩
  · rw [he, topOps_emitOp, topOps_constUpdate]
  · rw [he, tail_emitOp]

theorem emitsX_emitConst (v : Value) (st : CompState) :
    EmitsX st (emitConst v st) [] := by
  obtain ⟨idx, cs, he, _, _⟩ := emitConst_spec v st
  refine ⟨[.push idx], ?_, ?_, segX_none (by intro o ho; simp at ho; rw [ho]; rfl), by simp⟩
  · rw [he, topOps_emitOp, topOps_constUpdate]
  · rw [he, tail_emitOp]

theorem emitSave_top (bind : VarDecl) (st : CompState) :
    topOps (emitSave bind st).2 = topOps st ++ [.save ((topScope st).locals.length + 1)] := rfl

theorem emitsX_emitSave (bind : VarDecl) (st : CompState) :
    EmitsX st (emitSave bind st).2 [] :=
  ⟨[.save ((topScope st).locals.length + 1)], emitSave_top bind st, tail_emitSave bind st,
    segX_none (by intro o ho; simp at ho; rw [ho]; rfl), by simp⟩

theorem emitsX_patch (hs1 hs2 : List ℕ) {st st' : CompState} {p : ℕ} {op : OpCode}
    (h : EmitsX st st' (hs1 ++ p :: hs2))
    (hp : ∀ t, jmpTarget op = some t → p < t) :
    EmitsX st (patchOp p op st') (hs1 ++ hs2) := by
  obtain ⟨δ, ho, ht, hf, hb⟩ := h
  have hpb := hb p (by simp)
  refine ⟨δ.set (p - (topOps st).length) op, ?_, ?_, ?_, ?_⟩
  · rw [topOps_patchOp, ho]
    conv_lhs => rw [show p = (topOps st).length + (p - (topOps st).length) from by omega]
    rw [set_append_add]
  · rw [tail_patchOp, ht]
  · intro i o t hop htt
    by_cases hip : i = p - (topOps st).length
    · subst hip
      rw [List.getElem?_set, if_pos rfl, if_pos (by omega)] at hop
      have hoeq : op = o := by injection hop
      subst hoeq
      left
      have := hp t htt
      omega
    · rw [List.getElem?_set, if_neg (fun hh => hip hh.symm)] at hop
      rcases hf i o t hop htt with hfwd | hhole
      · exact Or.inl hfwd
      · rcases List.mem_append.mp hhole with h1 | h1
        · exact Or.inr (by simp [h1])
        · rcases List.mem_cons.mp h1 with h2 | h2
          · exact absurd (by omega : i = p - (topOps st).length) hip
          · exact Or.inr (by simp [h2])
  · intro j hj
    rw [List.length_set]
    apply hb
    rcases List.mem_append.mp hj with h1 | h1
    · simp [h1]
    · simp [h1]

theorem emitsX_foldl_patch : ∀ (js : List ℕ) (st st' : CompState) (ip : ℕ),
    EmitsX st st' js → (∀ j ∈ js, j < ip) →
    EmitsX st (js.foldl (fun t j => patchOp j (.jmp ip) t) st') []
  | [], _, _, _, h, _ => h
  | j :: js, st, st', ip, h, hlt => by
      rw [List.foldl_cons]
      refine emitsX_foldl_patch js st (patchOp j (.jmp ip) st') ip ?_
        (fun j' hj' => hlt j' (by simp [hj']))
      have hstep : EmitsX st (patchOp j (.jmp ip) st') ([] ++ js) :=
        emitsX_patch [] js (show EmitsX st st' ([] ++ j :: js) from h)
          (fun t htt => by
            have : ip = t := by injection htt
            have := hlt j (by simp)
            omega)
      exact hstep

theorem binOpOps_none (op : BinOp) : ∀ o ∈ binOpOps op, jmpTarget o = none := by
  cases op <;> simp [binOpOps, jmpTarget]

theorem unOpOps_none (op : UnOp) : ∀ o ∈ unOpOps op, jmpTarget o = none := by
  cases op <;> simp [unOpOps, jmpTarget]

mutual
/-- Well-formedness as the parser guarantees it: do-blocks are nonempty
(the parser builds Do nodes from brace blocks with at least one
expression); every other construct is unrestricted. -/
def wfExpr : Expr → Bool
  | .lit _ => true
  | .lambda _ body => wfExpr body
  | .app callee args _ => wfExpr callee && wfExprList args
  | .varE _ => true
  | .ife c t e => wfExpr c && wfExpr t && wfExpr e
  | .whenE scrut arms wc =>
      wfExpr scrut && wfArms arms &&
      (match wc with
       | none => true
       | some (_, b) => wfExpr b)
  | .letE _ v => wfExpr v
  | .defE _ v => wfExpr v
  | .binary l _ r => wfExpr l && wfExpr r
  | .listE xs => wfExprList xs
  | .cons h t => wfExpr h && wfExpr t
  | .unop _ r => wfExpr r
  | .doE body => !body.isEmpty && wfExprList body
  | .field o _ => wfExpr o
  | .methodRef t _ => wfExpr t
  | .newE t args => wfExpr t && wfExprList args
  | .invoke o _ args => wfExpr o && wfExprList args
  | .tryE b _ r => wfExpr b && wfExpr r
termination_by structural e => e

def wfExprList : List Expr → Bool
  | [] => true
  | e :: rest => wfExpr e && wfExprList rest
termination_by structural es => es

def wfArms : List (Expr × Expr) → Bool
  | [] => true
  | (c, b) :: rest => wfExpr c && wfExpr b && wfArms rest
termination_by structural arms => arms
end

theorem curLen_emitOp (op : OpCode) (st : CompState) :
    curLen (emitOp op st) = curLen st + 1 := by
  rw [curLen_eq, curLen_eq, topOps_emitOp]
  simp

theorem curLen_patchOp (i : ℕ) (op : OpCode) (st : CompState) :
    curLen (patchOp i op st) = curLen st := by
  rw [curLen_eq, curLen_eq, topOps_patchOp]
  simp

theorem curLen_emitSave (bind : VarDecl) (st : CompState) :
    curLen (emitSave bind st).2 = curLen st + 1 := by
  rw [curLen_eq, curLen_eq, emitSave_top]
  simp

theorem tail_setTop (f : Scope → Scope) (st : CompState) :
    (setTop f st).scopeStack.tail = st.scopeStack.tail := rfl

mutual
/-- Lowering a well-formed expression only appends to the innermost scope,
leaves the outer scopes alone, and every Jmp, Jmf and Try in the appended
segment carries a strictly forward target: no placeholder 0 survives. -/
theorem cexpr_fwd : ∀ (e : Expr) (st : CompState), wfExpr e = true →
    EmitsX st (cexpr e st) []
  | .lit l, st, _ => emitsX_emitLit l st
  | .lambda args body, st, hwf => by
      rw [cexpr_lambda]
      have hb : wfExpr body = true := by simpa [wfExpr] using hwf
      obtain ⟨δ2, ho2, htl2, hf2, hb2⟩ :=
        cexpr_fwd body { st with scopeStack := lambdaScope args :: st.scopeStack } hb
      have h3 : (cexpr body { st with scopeStack := lambdaScope args :: st.scopeStack }).scopeStack.tail
          = st.scopeStack := by simpa using htl2
      have base : EmitsX st
          { cexpr body { st with scopeStack := lambdaScope args :: st.scopeStack } with
            scopeStack := (cexpr body { st with scopeStack := lambdaScope args :: st.scopeStack }).scopeStack.tail }
          [] := by
        refine ⟨[], ?_, ?_, segX_nil _ _, by simp⟩
        · show ((cexpr body { st with scopeStack := lambdaScope args :: st.scopeStack }).scopeStack.tail.headD
              default).opcodes = topOps st ++ []
          rw [h3, List.append_nil]
          rfl
        · show (cexpr body { st with scopeStack := lambdaScope args :: st.scopeStack }).scopeStack.tail.tail
              = st.scopeStack.tail
          rw [h3]
      exact emitsX_trans base (emitsX_emitConst _ _)
  | .app callee args tl, st, hwf => by
      rw [cexpr_app]
      simp only [wfExpr, Bool.and_eq_true] at hwf
      obtain ⟨h1, h2⟩ := hwf
      have c1 : EmitsX st (cexpr callee (crevList args st)) [] :=
        emitsX_trans (crevList_fwd args st h2) (cexpr_fwd callee _ h1)
      cases tl
      · rw [if_neg (by simp)]
        exact emitsX_trans c1 (emitsX_emitOp_none (.call args.length) _ rfl)
      · rw [if_pos rfl]
        exact emitsX_trans c1 (emitsX_emitOp_none (.tcall args.length) _ rfl)
  | .varE name, st, _ => by
      rw [cexpr_varE]
      cases localsGet (topScope st).locals name
      · exact emitsX_emitOp_none _ _ rfl
      · exact emitsX_emitOp_none _ _ rfl
  | .ife cond thenE elseE, st, hwf => by
      rw [cexpr_ife]
      simp only [wfExpr, Bool.and_eq_true] at hwf
      obtain ⟨⟨h1, h2⟩, h3⟩ := hwf
      have c1 : EmitsX st (cexpr cond st) [] := cexpr_fwd cond st h1
      have c2 : EmitsX st (emitOp (.jmf 0) (cexpr cond st)) [curLen (cexpr cond st)] :=
        emitsX_trans c1 (emitsX_emitOp_hole _ _)
      have c3 : EmitsX st (cexpr thenE (emitOp (.jmf 0) (cexpr cond st)))
          [curLen (cexpr cond st)] :=
        emitsX_trans c2 (cexpr_fwd thenE _ h2)
      have c4 : EmitsX st (emitOp (.jmp 0) (cexpr thenE (emitOp (.jmf 0) (cexpr cond st))))
          [curLen (cexpr cond st), curLen (cexpr thenE (emitOp (.jmf 0) (cexpr cond st)))] :=
        emitsX_trans c3 (emitsX_emitOp_hole _ _)
      obtain ⟨d3, hd3⟩ := emitsX_curLen (cexpr_fwd thenE (emitOp (.jmf 0) (cexpr cond st)) h2)
      have c5 : EmitsX st
          (patchOp (curLen (cexpr cond st))
            (.jmf (curLen (emitOp (.jmp 0) (cexpr thenE (emitOp (.jmf 0) (cexpr cond st))))))
            (emitOp (.jmp 0) (cexpr thenE (emitOp (.jmf 0) (cexpr cond st)))))
          [curLen (cexpr thenE (emitOp (.jmf 0) (cexpr cond st)))] := by
        refine emitsX_patch [] [curLen (cexpr thenE (emitOp (.jmf 0) (cexpr cond st)))]
          (show EmitsX st _ ([] ++ curLen (cexpr cond st)
            :: [curLen (cexpr thenE (emitOp (.jmf 0) (cexpr cond st)))]) from c4) ?_
        intro t htt
        have ht : curLen (emitOp (.jmp 0) (cexpr thenE (emitOp (.jmf 0) (cexpr cond st)))) = t := by
          injection htt
        simp only [curLen_emitOp, curLen_patchOp, curLen_emitSave] at ht hd3 ⊢
        omega
      have c6 : EmitsX st
          (cexpr elseE (patchOp (curLen (cexpr cond st))
            (.jmf (curLen (emitOp (.jmp 0) (cexpr thenE (emitOp (.jmf 0) (cexpr cond st))))))
            (emitOp (.jmp 0) (cexpr thenE (emitOp (.jmf 0) (cexpr cond st))))))
          [curLen (cexpr thenE (emitOp (.jmf 0) (cexpr cond st)))] :=
        emitsX_trans c5 (cexpr_fwd elseE _ h3)
      obtain ⟨d6, hd6⟩ := emitsX_curLen (cexpr_fwd elseE
        (patchOp (curLen (cexpr cond st))
          (.jmf (curLen (emitOp (.jmp 0) (cexpr thenE (emitOp (.jmf 0) (cexpr cond st))))))
          (emitOp (.jmp 0) (cexpr thenE (emitOp (.jmf 0) (cexpr cond st))))) h3)
      refine emitsX_patch [] []
        (show EmitsX st _ ([] ++ curLen (cexpr thenE (emitOp (.jmf 0) (cexpr cond st))) :: [])
          from c6) ?_
      intro t htt
      have ht : curLen (cexpr elseE (patchOp (curLen (cexpr cond st))
          (.jmf (curLen (emitOp (.jmp 0) (cexpr thenE (emitOp (.jmf 0) (cexpr cond st))))))
          (emitOp (.jmp 0) (cexpr thenE (emitOp (.jmf 0) (cexpr cond st)))))) = t := by
        injection htt
      simp only [curLen_emitOp, curLen_patchOp, curLen_emitSave] at ht hd6 ⊢
      omega
  | .whenE scrut arms none, st, hwf => by
      rw [cexpr_whenE_none]
      simp only [wfExpr, Bool.and_eq_true] at hwf
      obtain ⟨⟨h1, h2⟩, -⟩ := hwf
      obtain ⟨newJ, e2, hjm⟩ := cwhenArms_fwd arms (cexpr scrut st) [] h2
      have c2 : EmitsX st (cwhenArms arms (cexpr scrut st) []).1 newJ :=
        emitsX_trans (cexpr_fwd scrut st h1) e2
      have c3 : EmitsX st (emitOp .pop (cwhenArms arms (cexpr scrut st) []).1) (newJ ++ []) :=
        emitsX_trans c2 (emitsX_emitOp_none .pop _ rfl)
      rw [List.append_nil] at c3
      have c4 : EmitsX st (emitConst .nil (emitOp .pop (cwhenArms arms (cexpr scrut st) []).1))
          (newJ ++ []) :=
        emitsX_trans c3 (emitsX_emitConst _ _)
      rw [List.append_nil] at c4
      have hjm2 : (cwhenArms arms (cexpr scrut st) []).2 = newJ := by simpa using hjm
      have hbound := emitsX_hole_lt c4
      have hres := emitsX_foldl_patch newJ st
        (emitConst .nil (emitOp .pop (cwhenArms arms (cexpr scrut st) []).1))
        (curLen (emitConst .nil (emitOp .pop (cwhenArms arms (cexpr scrut st) []).1)))
        c4 (fun j hj => (hbound j hj).2)
      rw [← hjm2] at hres
      exact hres
  | .whenE scrut arms (some (none, body)), st, hwf => by
      rw [cexpr_whenE_wild]
      simp only [wfExpr, Bool.and_eq_true] at hwf
      obtain ⟨⟨h1, h2⟩, h3⟩ := hwf
      obtain ⟨newJ, e2, hjm⟩ := cwhenArms_fwd arms (cexpr scrut st) [] h2
      have c2 : EmitsX st (cwhenArms arms (cexpr scrut st) []).1 newJ :=
        emitsX_trans (cexpr_fwd scrut st h1) e2
      have c3 : EmitsX st (cexpr body (cwhenArms arms (cexpr scrut st) []).1) (newJ ++ []) :=
        emitsX_trans c2 (cexpr_fwd body _ h3)
      rw [List.append_nil] at c3
      have hjm2 : (cwhenArms arms (cexpr scrut st) []).2 = newJ := by simpa using hjm
      have hbound := emitsX_hole_lt c3
      have hres := emitsX_foldl_patch newJ st
        (cexpr body (cwhenArms arms (cexpr scrut st) []).1)
        (curLen (cexpr body (cwhenArms arms (cexpr scrut st) []).1))
        c3 (fun j hj => (hbound j hj).2)
      rw [← hjm2] at hres
      exact hres
  | .whenE scrut arms (some (some bind, body)), st, hwf => by
      rw [cexpr_whenE_bind]
      simp only [wfExpr, Bool.and_eq_true] at hwf
      obtain ⟨⟨h1, h2⟩, h3⟩ := hwf
      obtain ⟨newJ, e2, hjm⟩ := cwhenArms_fwd arms (cexpr scrut st) [] h2
      have c2 : EmitsX st (cwhenArms arms (cexpr scrut st) []).1 newJ :=
        emitsX_trans (cexpr_fwd scrut st h1) e2
      have c3 : EmitsX st (emitSave bind (cwhenArms arms (cexpr scrut st) []).1).2 (newJ ++ []) :=
        emitsX_trans c2 (emitsX_emitSave _ _)
      rw [List.append_nil] at c3
      have c4 : EmitsX st (cexpr body (emitSave bind (cwhenArms arms (cexpr scrut st) []).1).2)
          (newJ ++ []) :=
        emitsX_trans c3 (cexpr_fwd body _ h3)
      rw [List.append_nil] at c4
      have hjm2 : (cwhenArms arms (cexpr scrut st) []).2 = newJ := by simpa using hjm
      have hbound := emitsX_hole_lt c4
      have hres := emitsX_foldl_patch newJ st
        (cexpr body (emitSave bind (cwhenArms arms (cexpr scrut st) []).1).2)
        (curLen (cexpr body (emitSave bind (cwhenArms arms (cexpr scrut st) []).1).2))
        c4 (fun j hj => (hbound j hj).2)
      rw [← hjm2] at hres
      exact hres
  | .letE bind value, st, hwf => by
      rw [cexpr_letE]
      have h1 : wfExpr value = true := by simpa [wfExpr] using hwf
      exact emitsX_trans
        (emitsX_trans (cexpr_fwd value st h1) (emitsX_emitSave _ _))
        (emitsX_emitConst _ _)
  | .defE bind value, st, hwf => by
      rw [cexpr_defE]
      have h1 : wfExpr value = true := by simpa [wfExpr] using hwf
      exact emitsX_trans
        (emitsX_trans (cexpr_fwd value st h1) (emitsX_emitSave _ _))
        (emitsX_emitConst _ _)
  | .binary left op right, st, hwf => by
      rw [cexpr_binary]
      simp only [wfExpr, Bool.and_eq_true] at hwf
      obtain ⟨h1, h2⟩ := hwf
      by_cases ha : op = BinOp.and
      · rw [if_pos ha]
        have c2 : EmitsX st (emitOp .dup (cexpr left st)) [] :=
          emitsX_trans (cexpr_fwd left st h1) (emitsX_emitOp_none .dup _ rfl)
        have c3 : EmitsX st (emitOp (.jmf 0) (emitOp .dup (cexpr left st)))
            [curLen (emitOp .dup (cexpr left st))] :=
          emitsX_trans c2 (emitsX_emitOp_hole _ _)
        have c4 : EmitsX st (emitOp .pop (emitOp (.jmf 0) (emitOp .dup (cexpr left st))))
            [curLen (emitOp .dup (cexpr left st))] :=
          emitsX_trans c3 (emitsX_emitOp_none .pop _ rfl)
        have c5 : EmitsX st
            (cexpr right (emitOp .pop (emitOp (.jmf 0) (emitOp .dup (cexpr left st)))))
            [curLen (emitOp .dup (cexpr left st))] :=
          emitsX_trans c4 (cexpr_fwd right _ h2)
        obtain ⟨d5, hd5⟩ := emitsX_curLen (cexpr_fwd right
          (emitOp .pop (emitOp (.jmf 0) (emitOp .dup (cexpr left st)))) h2)
        refine emitsX_patch [] []
          (show EmitsX st _ ([] ++ curLen (emitOp .dup (cexpr left st)) :: []) from c5) ?_
        intro t htt
        have ht : curLen (cexpr right (emitOp .pop (emitOp (.jmf 0) (emitOp .dup (cexpr left st)))))
            = t := by injection htt
        simp only [curLen_emitOp, curLen_patchOp, curLen_emitSave] at ht hd5 ⊢
        omega
      · rw [if_neg ha]
        by_cases ho : op = BinOp.or
        · rw [if_pos ho]
          have c2 : EmitsX st (emitOp .notOp (emitOp .dup (cexpr left st))) [] :=
            emitsX_trans
              (emitsX_trans (cexpr_fwd left st h1) (emitsX_emitOp_none .dup _ rfl))
              (emitsX_emitOp_none .notOp _ rfl)
          have c3 : EmitsX st (emitOp (.jmf 0) (emitOp .notOp (emitOp .dup (cexpr left st))))
              [curLen (emitOp .notOp (emitOp .dup (cexpr left st)))] :=
            emitsX_trans c2 (emitsX_emitOp_hole _ _)
          have c4 : EmitsX st
              (cexpr right (emitOp (.jmf 0) (emitOp .notOp (emitOp .dup (cexpr left st)))))
              [curLen (emitOp .notOp (emitOp .dup (cexpr left st)))] :=
            emitsX_trans c3 (cexpr_fwd right _ h2)
          obtain ⟨d4, hd4⟩ := emitsX_curLen (cexpr_fwd right
            (emitOp (.jmf 0) (emitOp .notOp (emitOp .dup (cexpr left st)))) h2)
          refine emitsX_patch [] []
            (show EmitsX st _ ([] ++ curLen (emitOp .notOp (emitOp .dup (cexpr left st))) :: [])
              from c4) ?_
          intro t htt
          have ht : curLen (cexpr right (emitOp (.jmf 0)
              (emitOp .notOp (emitOp .dup (cexpr left st))))) = t := by injection htt
          simp only [curLen_emitOp, curLen_patchOp, curLen_emitSave] at ht hd4 ⊢
          omega
        · rw [if_neg ho]
          exact emitsX_trans
            (emitsX_trans (cexpr_fwd left st h1) (cexpr_fwd right _ h2))
            (emitsX_emitOps _ _ (binOpOps_none op))
  | .listE xs, st, hwf => by
      rw [cexpr_listE]
      have h1 : wfExprList xs = true := by simpa [wfExpr] using hwf
      exact emitsX_trans (emitsX_emitConst _ _) (clistItems_fwd xs _ h1)
  | .cons head tl, st, hwf => by
      rw [cexpr_cons]
      simp only [wfExpr, Bool.and_eq_true] at hwf
      obtain ⟨h1, h2⟩ := hwf
      exact emitsX_trans
        (emitsX_trans (cexpr_fwd tl st h2) (cexpr_fwd head _ h1))
        (emitsX_emitOp_none .prep _ rfl)
  | .unop op right, st, hwf => by
      rw [cexpr_unop]
      have h1 : wfExpr right = true := by simpa [wfExpr] using hwf
      exact emitsX_trans (cexpr_fwd right st h1) (emitsX_emitOps _ _ (unOpOps_none op))
  | .doE body, st, hwf => by
      rw [cexpr_doE]
      simp only [wfExpr, Bool.and_eq_true] at hwf
      obtain ⟨h0, h1⟩ := hwf
      have hne : body ≠ [] := by
        intro hnil
        rw [hnil] at h0
        simp at h0
      obtain ⟨⟨δ, hod, htd, hfd, -⟩, hlen⟩ := cdoList_fwd body st h1
      have hδne : δ ≠ [] := by
        intro hnil
        have := hlen hne
        rw [curLen_eq, curLen_eq, hod, hnil, List.append_nil] at this
        omega
      refine ⟨δ.dropLast, ?_, ?_, segX_dropLast hfd, by simp⟩
      · show (topOps (cdoList body st)).dropLast = topOps st ++ δ.dropLast
        rw [hod, List.dropLast_append_of_ne_nil _ hδne]
      · show (cdoList body st).scopeStack.tail = st.scopeStack.tail
        exact htd
  | .field obj name, st, hwf => by
      rw [cexpr_field]
      have h1 : wfExpr obj = true := by simpa [wfExpr] using hwf
      exact emitsX_trans (cexpr_fwd obj st h1) (emitsX_emitOp_none (.get name) _ rfl)
  | .methodRef ty name, st, hwf => by
      rw [cexpr_methodRef]
      have h1 : wfExpr ty = true := by simpa [wfExpr] using hwf
      exact emitsX_trans (cexpr_fwd ty st h1) (emitsX_emitOp_none (.ref name) _ rfl)
  | .newE ty args, st, hwf => by
      rw [cexpr_newE]
      simp only [wfExpr, Bool.and_eq_true] at hwf
      obtain ⟨h1, h2⟩ := hwf
      exact emitsX_trans
        (emitsX_trans (crevList_fwd args st h2) (cexpr_fwd ty _ h1))
        (emitsX_emitOp_none (.new args.length) _ rfl)
  | .invoke obj name args, st, hwf => by
      rw [cexpr_invoke]
      simp only [wfExpr, Bool.and_eq_true] at hwf
      obtain ⟨h1, h2⟩ := hwf
      exact emitsX_trans
        (emitsX_trans
          (emitsX_trans
            (emitsX_trans
              (emitsX_trans (crevList_fwd args st h2) (cexpr_fwd obj _ h1))
              (emitsX_emitOp_none .dup _ rfl))
            (emitsX_emitOp_none .typeOp _ rfl))
          (emitsX_emitOp_none (.ref name) _ rfl))
        (emitsX_emitOp_none (.call (args.length + 1)) _ rfl)
  | .tryE body bind rescue, st, hwf => by
      rw [cexpr_tryE]
      simp only [wfExpr, Bool.and_eq_true] at hwf
      obtain ⟨h1, h2⟩ := hwf
      have c1 : EmitsX st (emitOp (.tryOp 0) st) [curLen st] := emitsX_emitOp_hole _ _
      have c2 : EmitsX st (cexpr body (emitOp (.tryOp 0) st)) [curLen st] :=
        emitsX_trans c1 (cexpr_fwd body _ h1)
      have c3 : EmitsX st (emitOp .endTry (cexpr body (emitOp (.tryOp 0) st))) [curLen st] :=
        emitsX_trans c2 (emitsX_emitOp_none .endTry _ rfl)
      have c4 : EmitsX st (emitOp (.jmp 0) (emitOp .endTry (cexpr body (emitOp (.tryOp 0) st))))
          [curLen st, curLen (emitOp .endTry (cexpr body (emitOp (.tryOp 0) st)))] :=
        emitsX_trans c3 (emitsX_emitOp_hole _ _)
      obtain ⟨d2, hd2⟩ := emitsX_curLen (cexpr_fwd body (emitOp (.tryOp 0) st) h1)
      have c5 : EmitsX st
          (patchOp (curLen st)
            (.tryOp (curLen (emitOp (.jmp 0) (emitOp .endTry (cexpr body (emitOp (.tryOp 0) st))))))
            (emitOp (.jmp 0) (emitOp .endTry (cexpr body (emitOp (.tryOp 0) st)))))
          [curLen (emitOp .endTry (cexpr body (emitOp (.tryOp 0) st)))] := by
        refine emitsX_patch [] [curLen (emitOp .endTry (cexpr body (emitOp (.tryOp 0) st)))]
          (show EmitsX st _ ([] ++ curLen st
            :: [curLen (emitOp .endTry (cexpr body (emitOp (.tryOp 0) st)))]) from c4) ?_
        intro t htt
        have ht : curLen (emitOp (.jmp 0) (emitOp .endTry (cexpr body (emitOp (.tryOp 0) st)))) = t := by
          injection htt
        simp only [curLen_emitOp, curLen_patchOp, curLen_emitSave] at ht hd2 ⊢
        omega
      have c6 : EmitsX st
          (emitSave bind (emitOp .pop (patchOp (curLen st)
            (.tryOp (curLen (emitOp (.jmp 0) (emitOp .endTry (cexpr body (emitOp (.tryOp 0) st))))))
            (emitOp (.jmp 0) (emitOp .endTry (cexpr body (emitOp (.tryOp 0) st))))))).2
          [curLen (emitOp .endTry (cexpr body (emitOp (.tryOp 0) st)))] := by
        have := emitsX_trans (emitsX_trans c5 (emitsX_emitOp_none .pop _ rfl)) (emitsX_emitSave bind _)
        simpa using this
      have c7 : EmitsX st
          (cexpr rescue (emitSave bind (emitOp .pop (patchOp (curLen st)
            (.tryOp (curLen (emitOp (.jmp 0) (emitOp .endTry (cexpr body (emitOp (.tryOp 0) st))))))
            (emitOp (.jmp 0) (emitOp .endTry (cexpr body (emitOp (.tryOp 0) st))))))).2)
          [curLen (emitOp .endTry (cexpr body (emitOp (.tryOp 0) st)))] := by
        have := emitsX_trans c6 (cexpr_fwd rescue _ h2)
        simpa using this
      obtain ⟨d8, hd8⟩ := emitsX_curLen (cexpr_fwd rescue
        (emitSave bind (emitOp .pop (patchOp (curLen st)
          (.tryOp (curLen (emitOp (.jmp 0) (emitOp .endTry (cexpr body (emitOp (.tryOp 0) st))))))
          (emitOp (.jmp 0) (emitOp .endTry (cexpr body (emitOp (.tryOp 0) st))))))).2 h2)
      refine emitsX_patch [] []
        (show EmitsX st _ ([] ++ curLen (emitOp .endTry (cexpr body (emitOp (.tryOp 0) st))) :: [])
          from c7) ?_
      intro t htt
      have ht : curLen (cexpr rescue (emitSave bind (emitOp .pop (patchOp (curLen st)
          (.tryOp (curLen (emitOp (.jmp 0) (emitOp .endTry (cexpr body (emitOp (.tryOp 0) st))))))
          (emitOp (.jmp 0) (emitOp .endTry (cexpr body (emitOp (.tryOp 0) st))))))).2) = t := by
        injection htt
      simp only [curLen_emitOp, curLen_patchOp, curLen_emitSave] at ht hd8 ⊢
      omega

theorem crevList_fwd : ∀ (es : List Expr) (st : CompState), wfExprList es = true →
    EmitsX st (crevList es st) []
  | [], st, _ => emitsX_refl st
  | e :: rest, st, hwf => by
      rw [crevList_cons]
      simp only [wfExprList, Bool.and_eq_true] at hwf
      obtain ⟨h1, h2⟩ := hwf
      exact emitsX_trans (crevList_fwd rest st h2) (cexpr_fwd e _ h1)

theorem clistItems_fwd : ∀ (es : List Expr) (st : CompState), wfExprList es = true →
    EmitsX st (clistItems es st) []
  | [], st, _ => emitsX_refl st
  | e :: rest, st, hwf => by
      rw [clistItems_cons]
      simp only [wfExprList, Bool.and_eq_true] at hwf
      obtain ⟨h1, h2⟩ := hwf
      exact emitsX_trans
        (emitsX_trans (clistItems_fwd rest st h2) (cexpr_fwd e _ h1))
        (emitsX_emitOp_none .prep _ rfl)

theorem cdoList_fwd : ∀ (es : List Expr) (st : CompState), wfExprList es = true →
    EmitsX st (cdoList es st) [] ∧ (es ≠ [] → curLen st < curLen (cdoList es st))
  | [], st, _ => ⟨emitsX_refl st, by simp⟩
  | e :: rest, st, hwf => by
      simp only [wfExprList, Bool.and_eq_true] at hwf
      obtain ⟨h1, h2⟩ := hwf
      have c1 : EmitsX st (emitOp .pop (cexpr e st)) [] :=
        emitsX_trans (cexpr_fwd e st h1) (emitsX_emitOp_none .pop _ rfl)
      obtain ⟨c2, hl2⟩ := cdoList_fwd rest (emitOp .pop (cexpr e st)) h2
      constructor
      · exact emitsX_trans c1 c2
      · intro _
        obtain ⟨d1, hd1⟩ := emitsX_curLen (cexpr_fwd e st h1)
        obtain ⟨d2, hd2⟩ := emitsX_curLen c2
        show curLen st < curLen (cdoList rest (emitOp .pop (cexpr e st)))
        rw [hd2, curLen_emitOp, hd1]
        omega

theorem cwhenArms_fwd : ∀ (arms : List (Expr × Expr)) (st : CompState) (jmps : List ℕ),
    wfArms arms = true →
    ∃ newJ, EmitsX st (cwhenArms arms st jmps).1 newJ ∧
      (cwhenArms arms st jmps).2 = jmps ++ newJ
  | [], st, jmps, _ => ⟨[], emitsX_refl st, by simp [cwhenArms_nil]⟩
  | (cond, body) :: rest, st, jmps, hwf => by
      rw [cwhenArms_cons]
      simp only [wfArms, Bool.and_eq_true] at hwf
      obtain ⟨⟨h1, h2⟩, h3⟩ := hwf
      have c3 : EmitsX st (emitOp .eq (cexpr cond (emitOp .dup st))) [] :=
        emitsX_trans
          (emitsX_trans (emitsX_emitOp_none .dup st rfl) (cexpr_fwd cond _ h1))
          (emitsX_emitOp_none .eq _ rfl)
      have c4 : EmitsX st (emitOp (.jmf 0) (emitOp .eq (cexpr cond (emitOp .dup st))))
          [curLen (emitOp .eq (cexpr cond (emitOp .dup st)))] :=
        emitsX_trans c3 (emitsX_emitOp_hole _ _)
      have c6 : EmitsX st
          (cexpr body (emitOp .pop (emitOp (.jmf 0) (emitOp .eq (cexpr cond (emitOp .dup st))))))
          [curLen (emitOp .eq (cexpr cond (emitOp .dup st)))] :=
        emitsX_trans (emitsX_trans c4 (emitsX_emitOp_none .pop _ rfl)) (cexpr_fwd body _ h2)
      have c7 : EmitsX st
          (emitOp (.jmp 0) (cexpr body (emitOp .pop (emitOp (.jmf 0)
            (emitOp .eq (cexpr cond (emitOp .dup st)))))))
          [curLen (emitOp .eq (cexpr cond (emitOp .dup st))),
           curLen (cexpr body (emitOp .pop (emitOp (.jmf 0)
             (emitOp .eq (cexpr cond (emitOp .dup st))))))] :=
        emitsX_trans c6 (emitsX_emitOp_hole _ _)
      obtain ⟨d6, hd6⟩ := emitsX_curLen (cexpr_fwd body
        (emitOp .pop (emitOp (.jmf 0) (emitOp .eq (cexpr cond (emitOp .dup st))))) h2)
      have c8 : EmitsX st
          (patchOp (curLen (emitOp .eq (cexpr cond (emitOp .dup st))))
            (.jmf (curLen (emitOp (.jmp 0) (cexpr body (emitOp .pop (emitOp (.jmf 0)
              (emitOp .eq (cexpr cond (emitOp .dup st)))))))))
            (emitOp (.jmp 0) (cexpr body (emitOp .pop (emitOp (.jmf 0)
              (emitOp .eq (cexpr cond (emitOp .dup st))))))))
          [curLen (cexpr body (emitOp .pop (emitOp (.jmf 0)
            (emitOp .eq (cexpr cond (emitOp .dup st))))))] := by
        refine emitsX_patch [] [curLen (cexpr body (emitOp .pop (emitOp (.jmf 0)
            (emitOp .eq (cexpr cond (emitOp .dup st))))))]
          (show EmitsX st _ ([] ++ curLen (emitOp .eq (cexpr cond (emitOp .dup st)))
            :: [curLen (cexpr body (emitOp .pop (emitOp (.jmf 0)
              (emitOp .eq (cexpr cond (emitOp .dup st))))))]) from c7) ?_
        intro t htt
        have ht : curLen (emitOp (.jmp 0) (cexpr body (emitOp .pop (emitOp (.jmf 0)
            (emitOp .eq (cexpr cond (emitOp .dup st))))))) = t := by
          injection htt
        simp only [curLen_emitOp, curLen_patchOp, curLen_emitSave] at ht hd6 ⊢
        omega
      obtain ⟨newJ', e', hjm'⟩ := cwhenArms_fwd rest
        (patchOp (curLen (emitOp .eq (cexpr cond (emitOp .dup st))))
          (.jmf (curLen (emitOp (.jmp 0) (cexpr body (emitOp .pop (emitOp (.jmf 0)
            (emitOp .eq (cexpr cond (emitOp .dup st)))))))))
          (emitOp (.jmp 0) (cexpr body (emitOp .pop (emitOp (.jmf 0)
            (emitOp .eq (cexpr cond (emitOp .dup st))))))))
        (jmps ++ [curLen (cexpr body (emitOp .pop (emitOp (.jmf 0)
          (emitOp .eq (cexpr cond (emitOp .dup st))))))]) h3
      refine ⟨curLen (cexpr body (emitOp .pop (emitOp (.jmf 0)
        (emitOp .eq (cexpr cond (emitOp .dup st)))))) :: newJ', ?_, ?_⟩
      · exact emitsX_trans c8 e'
      · rw [hjm', List.append_assoc]
        rfl
end

/-- C8: for every well-formed expression (do-blocks nonempty, as the parser
guarantees), every Jmp, Jmf and Try in the vector produced by compile_expr
carries a strictly forward target: each placeholder 0 emitted by if_expr,
when_expr, try and the short-circuit operators has been back-patched, and no
emitted transfer instruction retains target 0 (a genuine target 0 is
impossible for a forward jump from any position). -/
theorem C8_backpatching (e : Expr) (hwf : wfExpr e = true) :
    ∀ i op t, (compileExpr e).1[i]? = some op → jmpTarget op = some t →
      i < t ∧ t ≠ 0 := by
  intro i op t hop ht
  obtain ⟨δ, ho, -, hf, -⟩ := cexpr_fwd e ⟨[⟨[], []⟩], []⟩ hwf
  have hop2 : (topOps (cexpr e ⟨[⟨[], []⟩], []⟩))[i]? = some op := hop
  rw [ho] at hop2
  have hop3 : δ[i]? = some op := by simpa using hop2
  have h0 : (topOps (⟨[⟨[], []⟩], []⟩ : CompState)).length = 0 := rfl
  rcases hf i op t hop3 ht with hfwd | hmem
  · rw [h0] at hfwd
    omega
  · simp at hmem

/-- Witness for C8_backpatching: an if-expression over literals, whose
compiled code contains one patched Jmf and one patched Jmp. -/
theorem C8_backpatching_witness :
    wfExpr (.ife (.lit (.bool true)) (.lit .unit) (.lit (.bool false))) = true ∧
    ∀ i op t,
      (compileExpr (.ife (.lit (.bool true)) (.lit .unit) (.lit (.bool false)))).1[i]?
        = some op → jmpTarget op = some t → i < t ∧ t ≠ 0 :=
  ⟨by decide, C8_backpatching (.ife (.lit (.bool true)) (.lit .unit) (.lit (.bool false)))
    (by decide)⟩
